import Mathlib

/-!
# Verification of `sub/ass_mp.c`

A shallow embedding of three functions of `sub/ass_mp.c`:

* `mp_ass_flush_old_events` (lines 167-179), the in-place pruning of a track's
  event array against a watermark timestamp;
* `mp_ass_render_frame` (lines 100-129), the accumulation of the renderer's
  image list into a growable `sub_bitmaps` list;
* `mp_ass_set_style` (lines 41-81), of which only the computation of the
  `Alignment` field is embedded.

Conventions of the embedding.

* C `int` values are mathematical integers: counts and indices are `Nat`,
  field values are `Int`.  The counters do not wrap around; the specification
  treats them as non-wrapping as well.
* The `long long` sum `Start + Duration` of line 171 is computed in 64 bits: it
  wraps around in two's complement (`wrap_long_long`), as the compiled code
  does.  Statements about the mathematical sum carry the hypothesis that the
  sum is within the range of `long long`.
* A C array is a `List` whose length is the number of allocated slots.  An
  access outside the allocated slots is a `Fault.out_of_bounds`, a failed
  `assert` is a `Fault.assertion`.
* Loops are recursive functions.  The loops over indices carry a fuel argument;
  the entry points supply enough fuel and running out of it is reported as
  `Fault.out_of_fuel`, which the theorems below show never happens.
* Calls into libass are recorded in a ghost trace next to the array accesses of
  the function itself, so that statements about which release calls happen, and
  when, can be made about the trace.
-/

namespace AssMp

/-- Ways in which a run of the embedded code can go wrong. -/
inductive Fault where
  | out_of_bounds
  | assertion
  | out_of_fuel
  deriving DecidableEq, Repr

deriving instance DecidableEq for Except

/-! ## Event pruning: data model -/

/-- Libass event record, `ASS_Event`.  The code under study reads only `Start`
and `Duration` (both `long long`); `payload` stands for all the remaining
renderer-owned fields, which the pruning code copies along with the record. -/
structure ASS_Event where
  Start : Int
  Duration : Int
  payload : Nat
  deriving DecidableEq, Repr

/-- One observable step of `mp_ass_flush_old_events`: a read of `events[i]`, a
write of `events[i]`, or a call `ass_free_event(track, i)`.  Each step records
the event value that was in (or was put into) the slot at that moment. -/
inductive Access where
  | read (i : Nat) (e : ASS_Event)
  | write (i : Nat) (e : ASS_Event)
  | free (i : Nat) (e : ASS_Event)
  deriving DecidableEq, Repr

/-- Libass track, `ASS_Track`, restricted to what the code touches: the event
count `n_events` and the event array `events` (its length is the number of
allocated slots).  `trace` is ghost state: the steps performed so far. -/
structure ASS_Track where
  n_events : Nat
  events : List ASS_Event
  trace : List Access
  deriving DecidableEq, Repr

/-- Modelled from the spec: `ass_free_event` is a libass function, not part of
these sources.  The spec describes it as the per-event release operation that
"deallocates renderer-owned payload for one event" and is infallible; it
changes neither the event count nor the `Start`/`Duration` of any slot.  The
call is recorded in the trace together with the event it refers to. -/
def ass_free_event (track : ASS_Track) (eid : Nat) : Except Fault ASS_Track :=
  match track.events[eid]? with
  | none => .error .out_of_bounds
  | some e => .ok { track with trace := track.trace ++ [Access.free eid e] }

/-! ## Event pruning: the code -/

/-- The value of a `long long` expression whose mathematical value is `x`: the
representative of `x` modulo `2 ^ 64` in the range `-2 ^ 63 .. 2 ^ 63 - 1`. -/
def wrap_long_long (x : Int) : Int :=
  (x + 9223372036854775808) % 18446744073709551616 - 9223372036854775808

/-- First loop of `mp_ass_flush_old_events` (lines 170-175), entered with the
loop variable at `n`:
```
for (; n < track->n_events; n++) {
    if ((track->events[n].Start + track->events[n].Duration) >= ts)
        break;
    ass_free_event(track, n);
    track->n_events--;
}
```
The operands of the sum are `long long`; the sum is taken in 64 bits.
Returns the track and the final value of `n`. -/
def flush_scan : Nat → Int → ASS_Track → Nat → Except Fault (ASS_Track × Nat)
  | 0, _, _, _ => .error .out_of_fuel
  | fuel + 1, ts, track, n =>
    if n < track.n_events then
      match track.events[n]? with
      | none => .error .out_of_bounds
      | some e =>
        let track := { track with trace := track.trace ++ [Access.read n e] }
        if wrap_long_long (e.Start + e.Duration) ≥ ts then
          .ok (track, n)
        else
          match ass_free_event track n with
          | .error f => .error f
          | .ok track =>
            flush_scan fuel ts { track with n_events := track.n_events - 1 } (n + 1)
    else
      .ok (track, n)

/-- Second loop of `mp_ass_flush_old_events` (lines 176-178), entered with the
loop variable at `i`:
```
for (int i = 0; n > 0 && i < track->n_events; i++) {
    track->events[i] = track->events[i+n];
}
``` -/
def flush_shift : Nat → ASS_Track → Nat → Nat → Except Fault ASS_Track
  | 0, _, _, _ => .error .out_of_fuel
  | fuel + 1, track, n, i =>
    if n > 0 ∧ i < track.n_events then
      match track.events[i + n]? with
      | none => .error .out_of_bounds
      | some e =>
        if i < track.events.length then
          flush_shift fuel
            { track with
              events := track.events.set i e
              trace := track.trace ++ [Access.read (i + n) e, Access.write i e] }
            n (i + 1)
        else
          .error .out_of_bounds
    else
      .ok track

/-- The function `mp_ass_flush_old_events(track, ts)` (lines 167-179): the scan
loop from `n = 0`, then the shift loop from `i = 0`. -/
def mp_ass_flush_old_events (track : ASS_Track) (ts : Int) : Except Fault ASS_Track :=
  match flush_scan (track.n_events + 1) ts track 0 with
  | .error f => .error f
  | .ok (track, n) => flush_shift (track.n_events + 1) track n 0

/-! ## Event pruning: vocabulary of the specification -/

/-- End time of an event, `Start + Duration`. -/
def ASS_Event.end_time (e : ASS_Event) : Int := e.Start + e.Duration

/-- The value the code computes for `Start + Duration` on line 171: the end
time in 64-bit arithmetic. -/
def ASS_Event.end_sum (e : ASS_Event) : Int := wrap_long_long (e.Start + e.Duration)

/-- The sum `Start + Duration` of an event is within the range of `long long`,
`-2 ^ 63 .. 2 ^ 63 - 1`: computing it does not overflow. -/
def ASS_Event.in_range (e : ASS_Event) : Prop :=
  -9223372036854775808 ≤ e.Start + e.Duration ∧ e.Start + e.Duration ≤ 9223372036854775807

/-- The events of a track that are in use: the first `n_events` slots. -/
def ASS_Track.live_events (track : ASS_Track) : List ASS_Event :=
  track.events.take track.n_events

/-- The number `k` of the specification: the length of the longest prefix of
the events in use whose end time is below the watermark. -/
def leading_expired (track : ASS_Track) (ts : Int) : Nat :=
  (track.live_events.takeWhile (fun e => decide (e.end_time < ts))).length

/-- Whether a sum is in range can be computed. -/
instance ASS_Event.in_range_decidable (e : ASS_Event) : Decidable e.in_range := by
  unfold ASS_Event.in_range
  exact inferInstance

/-- The number of leading events in use that the scan of line 171 finds below
the watermark: as `leading_expired`, with the end times as the code computes
them. -/
def leading_below (track : ASS_Track) (ts : Int) : Nat :=
  (track.live_events.takeWhile (fun e => decide (e.end_sum < ts))).length

/-- The release calls of a trace, in order, as index/event pairs. -/
def released : List Access → List (Nat × ASS_Event)
  | [] => []
  | Access.free i e :: rest => (i, e) :: released rest
  | _ :: rest => released rest

/-- Steps of `count` iterations of the scan loop that each release an event,
starting at index `n`: a read and a release call per index. -/
def scan_steps (evs : List ASS_Event) : Nat → Nat → List Access
  | 0, _ => []
  | count + 1, n =>
    (match evs[n]? with
      | some e => [Access.read n e, Access.free n e]
      | none => []) ++ scan_steps evs count (n + 1)

/-- Steps of `count` iterations of the shift loop with offset `n`, starting at
index `i`: a read of slot `i + n` and a write of slot `i` per index. -/
def shift_steps (evs : List ASS_Event) (n : Nat) : Nat → Nat → List Access
  | 0, _ => []
  | count + 1, i =>
    (match evs[i + n]? with
      | some e => [Access.read (i + n) e, Access.write i e]
      | none => []) ++ shift_steps evs n count (i + 1)

/-- The final read of the scan loop, when it stops at index `r` on an event
that is kept. -/
def stop_step (evs : List ASS_Event) (r : Nat) (stopped : Bool) : List Access :=
  if stopped then
    match evs[r]? with
    | some e => [Access.read r e]
    | none => []
  else []

/-- A track as a caller hands it over: `evs` are the events in use, no spare
slots, empty trace. -/
def track_of (evs : List ASS_Event) : ASS_Track :=
  { n_events := evs.length, events := evs, trace := [] }

/-- Event with the given start and duration and a payload tag. -/
def ev (start duration : Int) (tag : Nat) : ASS_Event :=
  { Start := start, Duration := duration, payload := tag }

/-! ## Bitmap accumulation: data model -/

/-- Libass image fragment, `ASS_Image`.  The `next` link of the C struct is the
list structure: the renderer's result is a `List ASS_Image`.  `bitmap` is the
address of the pixel buffer, `color` the 32-bit colour value. -/
structure ASS_Image where
  w : Int
  h : Int
  stride : Int
  bitmap : Nat
  color : Nat
  dst_x : Int
  dst_y : Int
  deriving DecidableEq, Repr

/-- Output fragment, `struct sub_bitmap`; `libass_color` is the member
`libass.color`. -/
structure sub_bitmap where
  bitmap : Nat
  stride : Int
  w : Int
  h : Int
  x : Int
  y : Int
  dw : Int
  dh : Int
  libass_color : Nat
  deriving DecidableEq, Repr

/-- Output bitmap list, `struct sub_bitmaps`.  `parts` is the allocated array:
its length is the capacity, its first `num_parts` slots are the fragments
accumulated so far. -/
structure sub_bitmaps where
  format : Int
  parts : List sub_bitmap
  num_parts : Nat
  change_id : Int
  deriving DecidableEq, Repr

/-- Modelled from the spec: the enumerator `SUBBITMAP_LIBASS` is declared in
`osd.h`, which is not part of these sources.  The spec calls it "this
renderer's fixed format tag"; the value 0 is the "unset" tag.  No theorem
depends on the value chosen here. -/
def SUBBITMAP_LIBASS : Int := 1

/-- Modelled from the spec: the macro `MP_TALLOC_AVAIL` is not part of these
sources.  It yields the capacity of the list, the number of slots of the
allocation behind `parts`. -/
def MP_TALLOC_AVAIL (parts : List sub_bitmap) : Nat := parts.length

/-- Modelled from the spec: the macro `MPMAX` is not part of these sources; the
spec reads `MPMAX(num_parts_alloc * 2, 32)` as `max(capacity * 2, 32)`. -/
def MPMAX (a b : Nat) : Nat := if a > b then a else b

/-- Modelled from the spec: `talloc_realloc` is not part of these sources.  The
spec: "reallocate the backing storage, preserving existing entries 0..count-1
and leaving new slots uninitialized".  The result has `count` slots; the
content of a fresh slot `i` is the arbitrary value `junk i`. -/
def talloc_realloc (junk : Nat → sub_bitmap) (parts : List sub_bitmap) (count : Nat) :
    List sub_bitmap :=
  parts.take count ++ (List.range' parts.length (count - parts.length)).map junk

/-! ## Bitmap accumulation: the code -/

/-- Loop of `mp_ass_render_frame` (lines 111-128) over the image list, with the
local variable `num_parts_alloc`:
```
for (struct ass_image *img = imgs; img; img = img->next) {
    if (img->w == 0 || img->h == 0)
        continue;
    if (res->num_parts >= num_parts_alloc) {
        num_parts_alloc = MPMAX(num_parts_alloc * 2, 32);
        res->parts = talloc_realloc(NULL, res->parts, struct sub_bitmap,
                                    num_parts_alloc);
    }
    struct sub_bitmap *p = &res->parts[res->num_parts];
    p->bitmap = img->bitmap;
    ...
    res->num_parts++;
}
``` -/
def render_walk (junk : Nat → sub_bitmap) :
    List ASS_Image → sub_bitmaps → Nat → Except Fault sub_bitmaps
  | [], res, _ => .ok res
  | img :: next, res, num_parts_alloc =>
    if img.w = 0 ∨ img.h = 0 then
      render_walk junk next res num_parts_alloc
    else
      let grow := res.num_parts ≥ num_parts_alloc
      let num_parts_alloc :=
        if grow then MPMAX (num_parts_alloc * 2) 32 else num_parts_alloc
      let parts :=
        if grow then talloc_realloc junk res.parts num_parts_alloc else res.parts
      match parts[res.num_parts]? with
      | none => .error .out_of_bounds
      | some slot =>
        let p : sub_bitmap :=
          { slot with
            bitmap := img.bitmap
            stride := img.stride
            libass_color := img.color
            w := img.w
            dw := img.w
            h := img.h
            dh := img.h
            x := img.dst_x
            y := img.dst_y }
        render_walk junk next
          { res with parts := parts.set res.num_parts p, num_parts := res.num_parts + 1 }
          num_parts_alloc

/-- The function `mp_ass_render_frame(renderer, track, time, res)` (lines
100-129).  The call `ass_render_frame(renderer, track, time, &changed)` of line
104 goes into libass; its two results, the image list and the `changed` flag,
are the arguments `imgs` and `changed`. -/
def mp_ass_render_frame (junk : Nat → sub_bitmap) (imgs : List ASS_Image) (changed : Int)
    (res : sub_bitmaps) : Except Fault sub_bitmaps :=
  let res := if changed ≠ 0 then { res with change_id := res.change_id + 1 } else res
  if res.format = 0 ∨ res.format = SUBBITMAP_LIBASS then
    let res := { res with format := SUBBITMAP_LIBASS }
    let num_parts_alloc := MP_TALLOC_AVAIL res.parts
    render_walk junk imgs res num_parts_alloc
  else
    .error .assertion

/-- A sequence of calls of `mp_ass_render_frame` on the same list, without any
reset in between; each call comes with the renderer's results for it. -/
def render_frames (junk : Nat → sub_bitmap) :
    List (List ASS_Image × Int) → sub_bitmaps → Except Fault sub_bitmaps
  | [], res => .ok res
  | (imgs, changed) :: rest, res =>
    match mp_ass_render_frame junk imgs changed res with
    | .error f => .error f
    | .ok res => render_frames junk rest res

/-! ## Bitmap accumulation: vocabulary of the specification -/

/-- A fragment has non-zero area: `w != 0` and `h != 0`. -/
def ASS_Image.nonzero_area (img : ASS_Image) : Bool :=
  decide (img.w ≠ 0 ∧ img.h ≠ 0)

/-- The fragments of an image list that have non-zero area, in list order. -/
def nonzero_fragments (imgs : List ASS_Image) : List ASS_Image :=
  imgs.filter ASS_Image.nonzero_area

/-- The output fragment the specification prescribes for an image: pixel
buffer, stride and colour copied, logical and display size both the image's
size, destination copied. -/
def fragment_of (img : ASS_Image) : sub_bitmap :=
  { bitmap := img.bitmap, stride := img.stride, w := img.w, h := img.h,
    x := img.dst_x, y := img.dst_y, dw := img.w, dh := img.h,
    libass_color := img.color }

/-- The accumulated fragments of a list: the first `num_parts` slots. -/
def sub_bitmaps.fragments (res : sub_bitmaps) : List sub_bitmap :=
  res.parts.take res.num_parts

/-- Capacity of a list: the number of allocated slots. -/
def sub_bitmaps.capacity (res : sub_bitmaps) : Nat := MP_TALLOC_AVAIL res.parts

/-- Precondition of `mp_ass_render_frame` on its list: the format tag is unset
or the libass one, and the count does not exceed the capacity. -/
def sub_bitmaps.ready (res : sub_bitmaps) : Prop :=
  (res.format = 0 ∨ res.format = SUBBITMAP_LIBASS) ∧ res.num_parts ≤ res.capacity

/-- Image with the given size and a tag that fills the remaining fields. -/
def img (w h : Int) (tag : Nat) : ASS_Image :=
  { w := w, h := h, stride := w, bitmap := tag, color := tag, dst_x := tag, dst_y := tag }

/-- Slot content used for fresh slots in the examples. -/
def blank : sub_bitmap :=
  { bitmap := 0, stride := 0, w := 0, h := 0, x := 0, y := 0, dw := 0, dh := 0,
    libass_color := 0 }

/-- An empty list with no storage: format unset, capacity 0, count 0. -/
def empty_list : sub_bitmaps :=
  { format := 0, parts := [], num_parts := 0, change_id := 0 }

/-- The capacity that follows capacity `c` when the list grows: the value
`MPMAX(num_parts_alloc * 2, 32)` of line 115. -/
def next_capacity (c : Nat) : Nat := MPMAX (c * 2) 32

/-- The capacity `c` is the first term of the sequence `c₀`,
`next_capacity c₀`, `next_capacity (next_capacity c₀)`, ... that is at least
`n`: it is the term of some index `j`, it is at least `n`, and every earlier
term is below `n`. -/
def first_capacity_for (c₀ n c : Nat) : Prop :=
  ∃ j, c = Nat.iterate next_capacity j c₀ ∧ n ≤ c ∧
    ∀ i, i < j → Nat.iterate next_capacity i c₀ < n

/-- The number of fragments a sequence of calls appends: the non-zero-area
fragments of all its image lists. -/
def appended : List (List ASS_Image × Int) → Nat
  | [] => 0
  | (imgs, _) :: rest => (nonzero_fragments imgs).length + appended rest

/-! ## Style translation: the alignment -/

/-- Player-side style options, `struct osd_style_opts`, restricted to the two
alignment fields; each is -1, 0 or 1 by the option declarations. -/
structure osd_style_opts where
  align_x : Int
  align_y : Int
  deriving DecidableEq, Repr

/-- Libass style record, `ASS_Style`, restricted to the field `Alignment`. -/
structure ASS_Style where
  Alignment : Int
  deriving DecidableEq, Repr

/-- The function `mp_ass_set_style(style, res_y, opts)` (lines 41-81),
restricted to the null check of lines 44-45 and the assignment of line 77,
```
style->Alignment = 1 + (opts->align_x + 1) + (opts->align_y + 2) % 3 * 4;
```
A null `style` is `none`.  The C operator `%` truncates towards zero, which is
`Int.tmod`.  The other assignments of the function write other fields (most of
them floating point) and leave `Alignment` alone. -/
def mp_ass_set_style (style : Option ASS_Style) (opts : osd_style_opts) : Option ASS_Style :=
  match style with
  | none => none
  | some style =>
    some { style with
           Alignment := 1 + (opts.align_x + 1) + Int.tmod (opts.align_y + 2) 3 * 4 }

/-! ## Event pruning: the scan loop -/

/-- The scan loop, entered at `n` with enough fuel on a track whose count fits
its array, returns.  It leaves the array alone, keeps `n + n_events` constant,
passes only events whose computed end `end_sum` is below `ts`, stops either on
an event whose computed end is at least `ts` or because `n` has met the
lowered bound, and its steps are a
read and a release per passed index plus the final read. -/
theorem flush_scan_spec (ts : Int) : ∀ (fuel : Nat) (t : ASS_Track) (n : Nat),
    t.n_events ≤ t.events.length → t.n_events - n < fuel →
    ∃ t' r, flush_scan fuel ts t n = .ok (t', r) ∧ t'.events = t.events ∧ n ≤ r ∧
      r + t'.n_events = n + t.n_events ∧
      (n ≤ t.n_events + 1 → r ≤ t'.n_events + 1) ∧
      (∀ j, n ≤ j → j < r → ∃ e, t.events[j]? = some e ∧ e.end_sum < ts) ∧
      (r < t'.n_events → ∃ e, t.events[r]? = some e ∧ ts ≤ e.end_sum) ∧
      t'.trace = t.trace ++ scan_steps t.events (r - n) n
        ++ stop_step t.events r (decide (r < t'.n_events)) := by
  intro fuel
  induction fuel with
  | zero => intro t n _ h; omega
  | succ fuel ih =>
    intro t n hlen hfuel
    by_cases hn : n < t.n_events
    · have hb : n < t.events.length := by omega
      have hget : t.events[n]? = some t.events[n] := List.getElem?_eq_getElem hb
      by_cases hlive : ts ≤ wrap_long_long ((t.events[n]).Start + (t.events[n]).Duration)
      · refine ⟨{ t with trace := t.trace ++ [Access.read n t.events[n]] }, n, ?_⟩
        simp [flush_scan, hn, hget, hlive, scan_steps, stop_step, ASS_Event.end_sum]
        intro j h1 h2
        omega
      · obtain ⟨t', r, hrun, hev, hnr, hsum, hbound, hexp, hstop, htr⟩ :=
          ih { t with trace := t.trace ++ [Access.read n t.events[n]]
                        ++ [Access.free n t.events[n]]
                      n_events := t.n_events - 1 } (n + 1)
            (by simp; omega) (by simp; omega)
        simp only at hev hsum hbound hexp hstop htr
        have hexpired : (t.events[n]).end_sum < ts := by
          simp only [ASS_Event.end_sum]; omega
        have h1 : n ≤ r := Nat.le_of_succ_le hnr
        have h2 : r + t'.n_events = n + t.n_events := by
          clear hexp hstop hbound hrun htr
          omega
        have h3 : r ≤ t'.n_events + 1 := hbound (Nat.succ_le_succ (by
          clear hexp hstop hbound hrun htr
          omega))
        refine ⟨t', r, ?_, hev, h1, h2, fun _ => h3, ?_, hstop, ?_⟩
        · simp [flush_scan, hn, hget, hlive, ass_free_event]
          simpa using hrun
        · intro j hj hjr
          rcases Nat.eq_or_lt_of_le hj with h | h
          · subst h
            exact ⟨t.events[n], hget, hexpired⟩
          · exact hexp j h hjr
        · have hsplit : r - n = (r - (n + 1)) + 1 := by omega
          rw [htr, hsplit]
          simp [scan_steps, hget]
    · refine ⟨t, n, ?_⟩
      simp [flush_scan, hn, scan_steps, stop_step]
      intro j h1 h2
      omega

/-! ## Event pruning: the shift loop -/

/-- The steps of the shift loop from index `i` depend on the slots from
`i + n` on only. -/
theorem shift_steps_congr (evs₁ evs₂ : List ASS_Event) (n : Nat) :
    ∀ (count i : Nat), (∀ j, i + n ≤ j → evs₁[j]? = evs₂[j]?) →
      shift_steps evs₁ n count i = shift_steps evs₂ n count i := by
  intro count
  induction count with
  | zero => intro i _; rfl
  | succ count ih =>
    intro i h
    simp only [shift_steps]
    rw [h (i + n) (Nat.le_refl _), ih (i + 1) (fun j hj => h j (by omega))]

/-- With `n = 0` the shift loop does nothing. -/
theorem flush_shift_zero (fuel : Nat) (t : ASS_Track) (i : Nat) :
    flush_shift (fuel + 1) t 0 i = .ok t := by
  simp [flush_shift]

/-- The shift loop with offset `n > 0`, entered at `i` with enough fuel on a
track with `n_events + n` allocated slots, returns.  It keeps `n_events`,
moves slot `j + n` to slot `j` for every `j` from `i` up to `n_events`, always
reading a slot that has not been written, and touches no other slot. -/
theorem flush_shift_spec (n : Nat) (hn : 0 < n) : ∀ (fuel : Nat) (t : ASS_Track) (i : Nat),
    t.n_events + n ≤ t.events.length → t.n_events - i < fuel →
    ∃ t', flush_shift fuel t n i = .ok t' ∧ t'.n_events = t.n_events ∧
      t'.events.length = t.events.length ∧
      (∀ j, t'.events[j]? = if i ≤ j ∧ j < t.n_events then t.events[j + n]? else t.events[j]?) ∧
      t'.trace = t.trace ++ shift_steps t.events n (t.n_events - i) i := by
  intro fuel
  induction fuel with
  | zero => intro t i _ h; omega
  | succ fuel ih =>
    intro t i hlen hfuel
    by_cases hi : i < t.n_events
    · have hb : i + n < t.events.length := by omega
      have hb' : i < t.events.length := by omega
      have hget : t.events[i + n]? = some t.events[i + n] := List.getElem?_eq_getElem hb
      obtain ⟨t', hrun, hcount, hsize, hev, htr⟩ :=
        ih { t with
             events := t.events.set i t.events[i + n]
             trace := t.trace ++ [Access.read (i + n) t.events[i + n],
                                  Access.write i t.events[i + n]] } (i + 1)
          (by simpa using hlen) (by simp; omega)
      simp only [List.length_set] at hcount hsize hev htr
      refine ⟨t', ?_, hcount, hsize, ?_, ?_⟩
      · simp [flush_shift, hn, hi, hget, hb']
        simpa using hrun
      · intro j
        rw [hev j]
        by_cases hj : i + 1 ≤ j ∧ j < t.n_events
        · have h1 : i ≤ j ∧ j < t.n_events := ⟨by omega, hj.2⟩
          rw [if_pos hj, if_pos h1, List.getElem?_set_ne (by omega)]
        · rw [if_neg hj]
          by_cases hij : i = j
          · subst hij
            rw [if_pos ⟨Nat.le_refl _, hi⟩, List.getElem?_set_self hb', hget]
          · have h1 : ¬ (i ≤ j ∧ j < t.n_events) := by omega
            rw [if_neg h1, List.getElem?_set_ne hij]
      · have hsplit : t.n_events - i = (t.n_events - (i + 1)) + 1 := by omega
        rw [htr, hsplit]
        simp only [shift_steps, hget, List.append_assoc]
        rw [shift_steps_congr (t.events.set i t.events[i + n]) t.events n _ (i + 1)
          (fun j hj => List.getElem?_set_ne (by omega))]
    · refine ⟨t, ?_, rfl, rfl, ?_, ?_⟩
      · simp [flush_shift, hi]
      · intro j
        have h1 : ¬ (i ≤ j ∧ j < t.n_events) := by omega
        rw [if_neg h1]
      · have h0 : t.n_events - i = 0 := by omega
        simp [h0, shift_steps]

/-! ## Event pruning: the whole function -/

/-- A prefix all of whose elements satisfy `p` is no longer than the longest
such prefix. -/
theorem takeWhile_length_ge {α : Type} (p : α → Bool) : ∀ (l : List α) (r : Nat),
    (∀ j, j < r → ∃ e, l[j]? = some e ∧ p e = true) → r ≤ (l.takeWhile p).length := by
  intro l
  induction l with
  | nil =>
    intro r h
    cases r with
    | zero => simp
    | succ r => obtain ⟨e, he, _⟩ := h 0 (by omega); simp at he
  | cons a l ih =>
    intro r h
    cases r with
    | zero => simp
    | succ r =>
      obtain ⟨e, he, hp⟩ := h 0 (by omega)
      simp at he
      subst he
      have := ih r (fun j hj => by simpa using h (j + 1) (by omega))
      simp [List.takeWhile_cons, hp]
      exact this

/-- A prefix all of whose elements satisfy `p`, followed by an element that
does not, is the longest such prefix. -/
theorem takeWhile_length_eq {α : Type} (p : α → Bool) : ∀ (l : List α) (r : Nat),
    (∀ j, j < r → ∃ e, l[j]? = some e ∧ p e = true) →
    (∃ e, l[r]? = some e ∧ p e = false) → (l.takeWhile p).length = r := by
  intro l
  induction l with
  | nil => intro r _ h; obtain ⟨e, he, _⟩ := h; simp at he
  | cons a l ih =>
    intro r h hstop
    cases r with
    | zero =>
      obtain ⟨e, he, hp⟩ := hstop
      simp at he
      subst he
      simp [List.takeWhile_cons, hp]
    | succ r =>
      obtain ⟨e, he, hp⟩ := h 0 (by omega)
      simp at he
      subst he
      have := ih r (fun j hj => by simpa using h (j + 1) (by omega)) (by simpa using hstop)
      simp [List.takeWhile_cons, hp]
      exact this

/-- Characterisation of `mp_ass_flush_old_events` on a track whose count fits
its array: the call returns, having removed the first `r` events, where `r` is
the smaller of `leading_below` (the leading events whose computed end is below
`ts`) and half the count rounded up.
The events `r ..` move down by `r`, all other slots keep their content, and
the steps are those of the scan followed by those of the shift. -/
theorem flush_spec (t : ASS_Track) (ts : Int) (hlen : t.n_events ≤ t.events.length) :
    ∃ t' r, mp_ass_flush_old_events t ts = .ok t' ∧
      r = min (leading_below t ts) ((t.n_events + 1) / 2) ∧
      t'.n_events = t.n_events - r ∧
      t'.events.length = t.events.length ∧
      (∀ j, j < r → ∃ e, t.events[j]? = some e ∧ e.end_sum < ts) ∧
      (∀ j, t'.events[j]? = if j < t.n_events - r then t.events[j + r]? else t.events[j]?) ∧
      t'.trace = t.trace ++ scan_steps t.events r 0
        ++ stop_step t.events r (decide (r < t.n_events - r))
        ++ (if 0 < r then shift_steps t.events r (t.n_events - r) 0 else []) := by
  obtain ⟨t₁, r, hrun, hev, -, hsum, hbound, hexp, hstop, htr⟩ :=
    flush_scan_spec ts (t.n_events + 1) t 0 hlen (by omega)
  have hbound' : r ≤ t₁.n_events + 1 := hbound (by omega)
  have hn₁ : t₁.n_events = t.n_events - r := by
    clear hexp hstop hbound hrun htr; omega
  have hrN : r ≤ t.n_events := by
    clear hexp hstop hbound hrun htr; omega
  have hlive : ∀ j, j < t.n_events → t.live_events[j]? = t.events[j]? := by
    intro j hj
    simp [ASS_Track.live_events, List.getElem?_take, hj]
  have hk : r = min (leading_below t ts) ((t.n_events + 1) / 2) := by
    have hpre : ∀ j, j < r → ∃ e, t.live_events[j]? = some e ∧
        (fun e : ASS_Event => decide (e.end_sum < ts)) e = true := by
      intro j hj
      obtain ⟨e, he, hlt⟩ := hexp j (Nat.zero_le _) hj
      exact ⟨e, by rw [hlive j (by omega)]; exact he, by simpa using hlt⟩
    by_cases hlt : r < t₁.n_events
    · obtain ⟨e, he, hge⟩ := hstop hlt
      have hkr : leading_below t ts = r :=
        takeWhile_length_eq _ t.live_events r hpre
          ⟨e, by rw [hlive r (by omega)]; exact he, by simpa using hge⟩
      rw [hkr]
      clear hexp hstop hbound hrun htr hpre
      omega
    · have hkr : r ≤ leading_below t ts := takeWhile_length_ge _ t.live_events r hpre
      clear hexp hstop hbound hrun htr hpre
      omega
  simp only [Nat.sub_zero, Nat.zero_add] at htr
  by_cases hr : 0 < r
  · obtain ⟨t', hrun', hcount, hsize, hev', htr'⟩ :=
      flush_shift_spec r hr (t₁.n_events + 1) t₁ 0 (by rw [hev]; omega) (by omega)
    refine ⟨t', r, ?_, hk, by rw [hcount, hn₁], by rw [hsize, hev],
      fun j hj => hexp j (Nat.zero_le _) hj, ?_, ?_⟩
    · simp [mp_ass_flush_old_events, hrun, hrun']
    · intro j
      rw [hev' j, hev, hn₁]
      simp
    · rw [htr', htr, hev, hn₁, if_pos hr]
      simp
  · have hr0 : r = 0 := by omega
    subst hr0
    refine ⟨t₁, 0, ?_, hk, hn₁, by rw [hev], fun j hj => absurd hj (Nat.not_lt_zero _), ?_, ?_⟩
    · simp [mp_ass_flush_old_events, hrun, flush_shift_zero]
    · intro j
      simp [hev]
    · rw [htr, hn₁]
      simp

/-! ## Bitmap accumulation: the walk over the image list -/

/-- A reallocation to `count` slots has `count` slots. -/
theorem talloc_realloc_length (junk : Nat → sub_bitmap) (parts : List sub_bitmap)
    (count : Nat) : (talloc_realloc junk parts count).length = count := by
  simp [talloc_realloc]
  omega

/-- A reallocation keeps the content of every old slot that still exists. -/
theorem talloc_realloc_getElem? (junk : Nat → sub_bitmap) (parts : List sub_bitmap)
    (count i : Nat) (hi : i < parts.length) (hc : i < count) :
    (talloc_realloc junk parts count)[i]? = parts[i]? := by
  unfold talloc_realloc
  rw [List.getElem?_append_left (by simp; omega), List.getElem?_take, if_pos hc]

/-- The next capacity is strictly above the current one. -/
theorem MPMAX_grows (c : Nat) : c < MPMAX (c * 2) 32 := by
  unfold MPMAX
  split <;> omega

/-- An image with `w = 0` or `h = 0` is not among the non-zero-area fragments. -/
theorem nonzero_fragments_cons_zero (img : ASS_Image) (next : List ASS_Image)
    (h : img.w = 0 ∨ img.h = 0) : nonzero_fragments (img :: next) = nonzero_fragments next := by
  have : img.nonzero_area = false := by
    simp only [ASS_Image.nonzero_area, decide_eq_false_iff_not]
    rcases h with h | h <;> simp [h]
  simp [nonzero_fragments, List.filter_cons, this]

/-- An image with `w != 0` and `h != 0` is the first non-zero-area fragment. -/
theorem nonzero_fragments_cons_nonzero (img : ASS_Image) (next : List ASS_Image)
    (h : ¬ (img.w = 0 ∨ img.h = 0)) :
    nonzero_fragments (img :: next) = img :: nonzero_fragments next := by
  have : img.nonzero_area = true := by
    simp only [ASS_Image.nonzero_area, decide_eq_true_eq]
    exact ⟨fun h0 => h (Or.inl h0), fun h0 => h (Or.inr h0)⟩
  simp [nonzero_fragments, List.filter_cons, this]

/-- The walk over the image list, entered with `num_parts_alloc` equal to the
capacity and a count within the capacity, returns.  It keeps `format` and
`change_id`, raises the count by the number of non-zero-area fragments, keeps
the count within the capacity, never lowers the capacity, keeps the fragments
below the old count and fills the slots from the old count on with the output
fragments of the non-zero-area images in list order. -/
theorem render_walk_spec (junk : Nat → sub_bitmap) :
    ∀ (imgs : List ASS_Image) (res : sub_bitmaps) (alloc : Nat),
      alloc = res.parts.length → res.num_parts ≤ res.parts.length →
      ∃ res', render_walk junk imgs res alloc = .ok res' ∧
        res'.format = res.format ∧ res'.change_id = res.change_id ∧
        res'.num_parts = res.num_parts + (nonzero_fragments imgs).length ∧
        res'.num_parts ≤ res'.parts.length ∧
        res.parts.length ≤ res'.parts.length ∧
        (∀ i, i < res.num_parts → res'.parts[i]? = res.parts[i]?) ∧
        (∀ j, res.num_parts ≤ j → j < res'.num_parts →
          res'.parts[j]? = ((nonzero_fragments imgs)[j - res.num_parts]?).map fragment_of) := by
  intro imgs
  induction imgs with
  | nil =>
    intro res alloc _ hle
    refine ⟨res, rfl, rfl, rfl, by simp [nonzero_fragments], hle, Nat.le_refl _,
      fun _ _ => rfl, ?_⟩
    intro j h1 h2
    omega
  | cons img next ih =>
    intro res alloc halloc hle
    by_cases hz : img.w = 0 ∨ img.h = 0
    · obtain ⟨res', hrun, h⟩ := ih res alloc halloc hle
      refine ⟨res', ?_, ?_⟩
      · simp only [render_walk, if_pos hz]
        exact hrun
      · rw [nonzero_fragments_cons_zero img next hz]
        exact h
    · -- the storage after the capacity check of lines 114-118
      obtain ⟨parts, alloc', hparts, halloc', hroom, hcap, hkeep⟩ :
          ∃ (parts : List sub_bitmap) (alloc' : Nat),
            parts = (if res.num_parts ≥ alloc then
              talloc_realloc junk res.parts (if res.num_parts ≥ alloc then
                MPMAX (alloc * 2) 32 else alloc) else res.parts) ∧
            alloc' = (if res.num_parts ≥ alloc then MPMAX (alloc * 2) 32 else alloc) ∧
            res.num_parts < parts.length ∧ alloc' = parts.length ∧
            ∀ i, i < res.parts.length → parts[i]? = res.parts[i]? := by
        by_cases hg : res.num_parts ≥ alloc
        · have hgrow := MPMAX_grows alloc
          refine ⟨_, _, rfl, rfl, ?_, ?_, ?_⟩
          · simp only [if_pos hg, talloc_realloc_length]; omega
          · simp only [if_pos hg, talloc_realloc_length]
          · intro i hi
            simp only [if_pos hg]
            exact talloc_realloc_getElem? junk res.parts _ i hi (by omega)
        · refine ⟨_, _, rfl, rfl, ?_, ?_, ?_⟩
          · simp only [if_neg hg]; omega
          · simp only [if_neg hg]; exact halloc
          · intro i _
            simp only [if_neg hg]
      have hslot : parts[res.num_parts]? = some parts[res.num_parts] :=
        List.getElem?_eq_getElem hroom
      obtain ⟨res', hrun, hfmt, hid, hcount, hfit, hmono, hold, hnew⟩ :=
        ih { res with
             parts := parts.set res.num_parts (fragment_of img)
             num_parts := res.num_parts + 1 } alloc'
          (by simpa using hcap) (by simpa using hroom)
      simp only [List.length_set] at hfmt hid hcount hfit hmono hold hnew
      have hlen : res.parts.length ≤ parts.length := by
        by_contra hcon
        have := hkeep parts.length (by omega)
        rw [List.getElem?_eq_none (Nat.le_refl _)] at this
        have h2 : res.parts[parts.length]? = some res.parts[parts.length] :=
          List.getElem?_eq_getElem (by omega)
        rw [h2] at this
        cases this
      refine ⟨res', ?_, hfmt, hid, ?_, hfit, by omega, ?_, ?_⟩
      · simp only [render_walk, if_neg hz]
        rw [← hparts, ← halloc', hslot]
        exact hrun
      · rw [nonzero_fragments_cons_nonzero img next hz, hcount]
        simp only [List.length_cons]
        omega
      · intro i hi
        rw [hold i (by omega), List.getElem?_set_ne (by omega), hkeep i (by omega)]
      · intro j h1 h2
        rw [nonzero_fragments_cons_nonzero img next hz]
        rcases Nat.eq_or_lt_of_le h1 with h | h
        · subst h
          rw [hold _ (by omega), List.getElem?_set_self hroom]
          simp
        · rw [hnew j (by omega) h2]
          have hsplit : j - res.num_parts = (j - (res.num_parts + 1)) + 1 := by omega
          rw [hsplit, List.getElem?_cons_succ]

/-! ## Event pruning: consequences of the characterisation -/

/-- After the removal of the first `r` events the events in use are the old
ones without their first `r`. -/
theorem live_events_after (t t' : ASS_Track) (r : Nat)
    (hcount : t'.n_events = t.n_events - r)
    (hev : ∀ j, t'.events[j]? = if j < t.n_events - r then t.events[j + r]? else t.events[j]?) :
    t'.live_events = t.live_events.drop r := by
  apply List.ext_getElem?
  intro j
  simp only [ASS_Track.live_events, List.getElem?_take, List.getElem?_drop, hcount, hev j]
  by_cases hj : j < t.n_events - r
  · rw [if_pos hj, if_pos hj, if_pos (by omega), Nat.add_comm]
  · rw [if_neg hj, if_neg (by omega)]

/-- A release among the scan steps is on an index the scan passed and refers
to the event at that index. -/
theorem free_mem_scan_steps (evs : List ASS_Event) (i : Nat) (e : ASS_Event) :
    ∀ (count n : Nat), Access.free i e ∈ scan_steps evs count n →
      n ≤ i ∧ i < n + count ∧ evs[i]? = some e := by
  intro count
  induction count with
  | zero => intro n h; simp [scan_steps] at h
  | succ count ih =>
    intro n h
    simp only [scan_steps, List.mem_append] at h
    rcases h with h | h
    · cases hget : evs[n]? with
      | none => simp [hget] at h
      | some e' =>
        simp [hget] at h
        obtain ⟨h1, h2⟩ := h
        subst h1
        subst h2
        exact ⟨Nat.le_refl _, by omega, hget⟩
    · obtain ⟨h1, h2, h3⟩ := ih (n + 1) h
      exact ⟨by omega, by omega, h3⟩

/-- The final read of the scan is not a release. -/
theorem free_not_mem_stop_step (evs : List ASS_Event) (r : Nat) (b : Bool) (i : Nat)
    (e : ASS_Event) : Access.free i e ∉ stop_step evs r b := by
  unfold stop_step
  cases b <;> cases evs[r]? <;> simp

/-- The shift loop makes no release call. -/
theorem free_not_mem_shift_steps (evs : List ASS_Event) (n i : Nat) (e : ASS_Event) :
    ∀ (count k : Nat), Access.free i e ∉ shift_steps evs n count k := by
  intro count
  induction count with
  | zero => intro k; simp [shift_steps]
  | succ count ih =>
    intro k
    simp only [shift_steps, List.mem_append, not_or]
    refine ⟨?_, ih (k + 1)⟩
    cases evs[k + n]? <;> simp

/-- When nothing behind the longest `p`-prefix satisfies `p`, dropping that
prefix is the same as keeping the elements that do not satisfy `p`. -/
theorem filter_live_eq_drop {α : Type} (p : α → Bool) : ∀ (l : List α),
    (∀ e, e ∈ l.drop (l.takeWhile p).length → p e = false) →
    l.filter (fun e => !p e) = l.drop (l.takeWhile p).length := by
  intro l
  induction l with
  | nil => intro _; rfl
  | cons a l ih =>
    intro h
    by_cases hp : p a = true
    · simp only [List.takeWhile_cons, hp, if_true, List.length_cons, List.drop_succ_cons] at h ⊢
      rw [List.filter_cons]
      simp only [hp, Bool.not_true, Bool.false_eq_true, if_false]
      exact ih h
    · simp only [List.takeWhile_cons, hp, if_false, List.length_nil, List.drop_zero] at h ⊢
      exact List.filter_eq_self.mpr (fun e he => by simp [h e he])

/-- A sum within the range of `long long` is computed exactly. -/
theorem wrap_long_long_of_in_range (x : Int) (h1 : -9223372036854775808 ≤ x)
    (h2 : x ≤ 9223372036854775807) : wrap_long_long x = x := by
  unfold wrap_long_long
  omega

/-- For an event whose sum is in range the computed end is the end time. -/
theorem end_sum_of_in_range (e : ASS_Event) (h : e.in_range) : e.end_sum = e.end_time :=
  wrap_long_long_of_in_range _ h.1 h.2

/-- Two predicates that agree on the elements of a list have the same longest
prefix in it. -/
theorem takeWhile_congr_mem {α : Type} (p q : α → Bool) : ∀ (l : List α),
    (∀ e, e ∈ l → p e = q e) → l.takeWhile p = l.takeWhile q := by
  intro l
  induction l with
  | nil => intro _; rfl
  | cons a l ih =>
    intro h
    rw [List.takeWhile_cons, List.takeWhile_cons, h a (List.mem_cons_self _ _),
      ih (fun e he => h e (List.mem_cons_of_mem _ he))]

/-- When no sum of an event in use overflows, the scan finds exactly the
expired prefix of the specification. -/
theorem leading_below_eq (t : ASS_Track) (ts : Int)
    (hrange : ∀ e, e ∈ t.live_events → e.in_range) :
    leading_below t ts = leading_expired t ts := by
  unfold leading_below leading_expired
  rw [takeWhile_congr_mem _ (fun e => decide (e.end_time < ts)) t.live_events
    (fun e he => by rw [end_sum_of_in_range e (hrange e he)])]

/-- An event found in a slot below `n_events` is an event in use. -/
theorem mem_live_events (t : ASS_Track) (i : Nat) (e : ASS_Event) (hi : i < t.n_events)
    (hget : t.events[i]? = some e) : e ∈ t.live_events := by
  apply List.getElem?_mem (n := i)
  rw [ASS_Track.live_events, List.getElem?_take, if_pos hi]
  exact hget

/-! ## Event pruning: the claims -/

/-- C1 (defect of the code).  Three events that all end before the watermark
100: the expired prefix has length `k = 3`, so the claim asks for
`n_events = 3 - 3 = 0`.  The code releases only the events 0 and 1, leaves
`n_events = 1` and moves the third, expired event into slot 0. -/
theorem C1_flush_stops_halfway :
    leading_expired (track_of [ev 0 10 0, ev 5 20 1, ev 30 5 2]) 100 = 3 ∧
    mp_ass_flush_old_events (track_of [ev 0 10 0, ev 5 20 1, ev 30 5 2]) 100 =
      .ok { n_events := 1
            events := [ev 30 5 2, ev 5 20 1, ev 30 5 2]
            trace := [Access.read 0 (ev 0 10 0), Access.free 0 (ev 0 10 0),
                      Access.read 1 (ev 5 20 1), Access.free 1 (ev 5 20 1),
                      Access.read 2 (ev 30 5 2), Access.write 0 (ev 30 5 2)] } := by
  decide

/-- C2, counterexample.  The first event ends at 100, the second at 15, the
watermark is 26.  The scan stops at the first event, so the call keeps both
events, although only the first has an end time of at least 26. -/
theorem C2_expired_event_behind_live_one :
    (mp_ass_flush_old_events (track_of [ev 0 100 0, ev 5 10 1]) 26).map
        ASS_Track.live_events = .ok [ev 0 100 0, ev 5 10 1] ∧
    (track_of [ev 0 100 0, ev 5 10 1]).live_events.filter
        (fun e => decide (26 ≤ e.end_time)) = [ev 0 100 0] ∧
    (ev 5 10 1).end_time < 26 := by
  decide

/-- C2, amended.  When no sum `Start + Duration` of an event in use overflows
`long long`, every event behind the expired prefix has an end time of at least
`ts`, and the expired prefix is no longer than half of the events (rounded
up), the call succeeds and the events in use afterwards are exactly the
pre-call events with `Start + Duration >= ts`, in their original order; in
particular none of them has `Start + Duration < ts`. -/
theorem C2_flush_keeps_exactly_live (t : ASS_Track) (ts : Int)
    (hlen : t.n_events ≤ t.events.length)
    (hrange : ∀ e, e ∈ t.live_events → e.in_range)
    (hsorted : ∀ e, e ∈ t.live_events.drop (leading_expired t ts) → ts ≤ e.Start + e.Duration)
    (hhalf : leading_expired t ts ≤ (t.n_events + 1) / 2) :
    ∃ t', mp_ass_flush_old_events t ts = .ok t' ∧
      t'.live_events = t.live_events.filter (fun e => decide (ts ≤ e.Start + e.Duration)) ∧
      ∀ e, e ∈ t'.live_events → ¬ (e.Start + e.Duration < ts) := by
  obtain ⟨t', r, hrun, hr, hcount, -, -, hev, -⟩ := flush_spec t ts hlen
  rw [leading_below_eq t ts hrange] at hr
  have hrk : r = leading_expired t ts := by omega
  have hlive := live_events_after t t' r hcount hev
  have hfilter := filter_live_eq_drop (fun e : ASS_Event => decide (e.end_time < ts))
    t.live_events (fun e he => by
      have := hsorted e he
      simp only [ASS_Event.end_time, decide_eq_false_iff_not]
      omega)
  have hsame : (fun e : ASS_Event => !decide (e.end_time < ts)) =
      (fun e : ASS_Event => decide (ts ≤ e.Start + e.Duration)) := by
    funext e
    simp only [ASS_Event.end_time]
    by_cases h : ts ≤ e.Start + e.Duration
    · have h' : ¬ (e.Start + e.Duration < ts) := by omega
      simp [h, h']
    · have h' : e.Start + e.Duration < ts := by omega
      simp [h, h']
  rw [hsame] at hfilter
  refine ⟨t', hrun, ?_, ?_⟩
  · rw [hlive, hrk, hfilter]
    rfl
  · intro e he
    rw [hlive, hrk] at he
    have := hsorted e he
    omega

/-- C2, amended, at the example of the specification: four events with end
times 10, 25, 35, 140 and watermark 26. -/
theorem C2_flush_keeps_exactly_live_witness :
    (track_of [ev 0 10 0, ev 5 20 1, ev 30 5 2, ev 40 100 3]).n_events ≤
      (track_of [ev 0 10 0, ev 5 20 1, ev 30 5 2, ev 40 100 3]).events.length ∧
    (∀ e, e ∈ (track_of [ev 0 10 0, ev 5 20 1, ev 30 5 2, ev 40 100 3]).live_events → e.in_range) ∧
    ∃ t', mp_ass_flush_old_events
        (track_of [ev 0 10 0, ev 5 20 1, ev 30 5 2, ev 40 100 3]) 26 = .ok t' ∧
      t'.live_events = (track_of [ev 0 10 0, ev 5 20 1, ev 30 5 2, ev 40 100 3]).live_events.filter
        (fun e => decide ((26 : Int) ≤ e.Start + e.Duration)) ∧
      ∀ e, e ∈ t'.live_events → ¬ (e.Start + e.Duration < 26) :=
  ⟨by decide, by decide,
   C2_flush_keeps_exactly_live (track_of [ev 0 10 0, ev 5 20 1, ev 30 5 2, ev 40 100 3]) 26
     (by decide) (by decide) (by decide) (by decide)⟩

/-- C3 (defect of the code).  The four events of the specification's example
all end before the watermark 1000, so the claim asks for `n_events = 0`.  The
code releases the events 0 and 1 only and leaves `n_events = 2`, with the
expired events 2 and 3 in the slots 0 and 1. -/
theorem C3_flush_does_not_empty :
    (∀ e, e ∈ (track_of [ev 0 10 0, ev 5 20 1, ev 30 5 2, ev 40 100 3]).live_events →
      e.Start + e.Duration < 1000) ∧
    (mp_ass_flush_old_events (track_of [ev 0 10 0, ev 5 20 1, ev 30 5 2, ev 40 100 3]) 1000).map
        (fun t => (t.n_events, t.live_events)) = .ok (2, [ev 30 5 2, ev 40 100 3]) := by
  decide

/-- C4, counterexample.  The first event has `Start = 2 ^ 63 - 1` and
`Duration = 1`: its end time `2 ^ 63` is at least the watermark 0, so the
claim asks for a no-op.  The 64-bit sum of line 171 wraps to `-2 ^ 63`, which
is below 0: the code releases the event and lowers `n_events` to 1. -/
theorem C4_overflowing_first_event_released :
    (track_of [ev 9223372036854775807 1 0, ev 0 5 1]).events[0]? = some (ev 9223372036854775807 1 0) ∧
    (0 : Int) ≤ (ev 9223372036854775807 1 0).Start + (ev 9223372036854775807 1 0).Duration ∧
    (mp_ass_flush_old_events (track_of [ev 9223372036854775807 1 0, ev 0 5 1]) 0).map
        (fun t => (t.n_events, released t.trace)) = .ok (1, [(0, ev 9223372036854775807 1 0)]) := by
  decide

/-- C4, amended.  On a track that has no events in use, or whose first event
has `Start + Duration >= ts` with the sum within the range of `long long`, the
call succeeds and is a no-op: `n_events` and the whole event array are
unchanged, and the only steps performed are reads (no call of
`ass_free_event`, no write to the array). -/
theorem C4_flush_noop (t : ASS_Track) (ts : Int)
    (h : t.n_events = 0 ∨
      ∃ e, t.events[0]? = some e ∧ e.in_range ∧ ts ≤ e.Start + e.Duration) :
    ∃ t', mp_ass_flush_old_events t ts = .ok t' ∧
      t'.n_events = t.n_events ∧ t'.events = t.events ∧
      ∃ steps, t'.trace = t.trace ++ steps ∧ released steps = [] ∧
        ∀ a, a ∈ steps → ∃ i e, a = Access.read i e := by
  by_cases h0 : 0 < t.n_events
  · rcases h with h | ⟨e, he, hrange, hlive⟩
    · omega
    · have hsum : ts ≤ wrap_long_long (e.Start + e.Duration) := by
        rw [wrap_long_long_of_in_range _ hrange.1 hrange.2]
        exact hlive
      refine ⟨{ t with trace := t.trace ++ [Access.read 0 e] }, ?_, rfl, rfl,
        [Access.read 0 e], rfl, rfl, ?_⟩
      · simp [mp_ass_flush_old_events, flush_scan, flush_shift, h0, he, hsum]
      · intro a ha
        exact ⟨0, e, by simpa using ha⟩
  · refine ⟨t, ?_, rfl, rfl, [], by simp, rfl, ?_⟩
    · simp [mp_ass_flush_old_events, flush_scan, flush_shift, h0]
    · intro a ha
      simp at ha

/-- C4, amended, at watermark 0 on the example of the specification, where no
end time is negative. -/
theorem C4_flush_noop_witness :
    ((track_of [ev 0 10 0, ev 5 20 1, ev 30 5 2, ev 40 100 3]).n_events = 0 ∨
      ∃ e, (track_of [ev 0 10 0, ev 5 20 1, ev 30 5 2, ev 40 100 3]).events[0]? = some e ∧ e.in_range ∧
        (0 : Int) ≤ e.Start + e.Duration) ∧
    ∃ t', mp_ass_flush_old_events
        (track_of [ev 0 10 0, ev 5 20 1, ev 30 5 2, ev 40 100 3]) 0 = .ok t' ∧
      t'.n_events = (track_of [ev 0 10 0, ev 5 20 1, ev 30 5 2, ev 40 100 3]).n_events ∧
      t'.events = (track_of [ev 0 10 0, ev 5 20 1, ev 30 5 2, ev 40 100 3]).events ∧
      ∃ steps, t'.trace =
          (track_of [ev 0 10 0, ev 5 20 1, ev 30 5 2, ev 40 100 3]).trace ++ steps ∧
        released steps = [] ∧ ∀ a, a ∈ steps → ∃ i e, a = Access.read i e :=
  ⟨Or.inr ⟨ev 0 10 0, rfl, by decide, by decide⟩,
   C4_flush_noop (track_of [ev 0 10 0, ev 5 20 1, ev 30 5 2, ev 40 100 3]) 0
     (Or.inr ⟨ev 0 10 0, rfl, by decide, by decide⟩)⟩

/-- C5, counterexample.  Both events have an end time of at least the
watermark 0 (`2 ^ 63` and 5), so the expired prefix is empty and the claim
asks that both stay and that nothing is released.  The 64-bit sum of the first
event wraps to `-2 ^ 63`: the code releases that event and removes it. -/
theorem C5_overflowing_live_event_removed :
    (∀ e, e ∈ (track_of [ev 9223372036854775807 1 0, ev 0 5 1]).live_events →
      (0 : Int) ≤ e.Start + e.Duration) ∧
    leading_expired (track_of [ev 9223372036854775807 1 0, ev 0 5 1]) 0 = 0 ∧
    (mp_ass_flush_old_events (track_of [ev 9223372036854775807 1 0, ev 0 5 1]) 0).map
        (fun t => (t.live_events, released t.trace)) =
      .ok ([ev 0 5 1], [(0, ev 9223372036854775807 1 0)]) := by
  decide

/-- C5, amended.  When no sum `Start + Duration` of an event in use overflows
`long long`, the call succeeds and never removes or releases a live event: the
pre-call events from the first one with `Start + Duration >= ts` on (those
behind the expired prefix) are all still in use afterwards, as the final
segment of the events in use and hence in their original order, and every
call of `ass_free_event` is on an index in use whose event, the pre-call
event at that index, has `Start + Duration < ts`. -/
theorem C5_flush_spares_live (t : ASS_Track) (ts : Int)
    (hlen : t.n_events ≤ t.events.length)
    (hrange : ∀ e, e ∈ t.live_events → e.in_range) :
    ∃ t', mp_ass_flush_old_events t ts = .ok t' ∧
      t.live_events.drop (leading_expired t ts) <:+ t'.live_events ∧
      ∃ steps, t'.trace = t.trace ++ steps ∧
        ∀ i e, Access.free i e ∈ steps →
          i < t.n_events ∧ t.events[i]? = some e ∧ e.Start + e.Duration < ts := by
  obtain ⟨t', r, hrun, hr, hcount, -, hexp, hev, htr⟩ := flush_spec t ts hlen
  rw [leading_below_eq t ts hrange] at hr
  have hrk : r ≤ leading_expired t ts := by omega
  have hrN : r ≤ t.n_events := by omega
  refine ⟨t', hrun, ?_, _, by rw [htr, List.append_assoc, List.append_assoc], ?_⟩
  · rw [live_events_after t t' r hcount hev]
    have hsplit : leading_expired t ts = r + (leading_expired t ts - r) := by omega
    rw [hsplit, ← List.drop_drop]
    exact List.drop_suffix _ _
  · intro i e hmem
    simp only [List.mem_append] at hmem
    rcases hmem with hmem | hmem | hmem
    · obtain ⟨-, hir, hget⟩ := free_mem_scan_steps t.events i e r 0 hmem
      obtain ⟨e', hget', hlt⟩ := hexp i (by omega)
      rw [hget] at hget'
      cases hget'
      have hi : i < t.n_events := by omega
      rw [end_sum_of_in_range e (hrange e (mem_live_events t i e hi hget))] at hlt
      exact ⟨hi, hget, hlt⟩
    · exact absurd hmem (free_not_mem_stop_step _ _ _ _ _)
    · split at hmem
      · exact absurd hmem (free_not_mem_shift_steps _ _ _ _ _ _)
      · simp at hmem

/-- C5, amended, on three events with watermark 35: the first two end before
it, the last one exactly at it. -/
theorem C5_flush_spares_live_witness :
    (track_of [ev 0 10 0, ev 5 20 1, ev 30 5 2]).n_events ≤
      (track_of [ev 0 10 0, ev 5 20 1, ev 30 5 2]).events.length ∧
    (∀ e, e ∈ (track_of [ev 0 10 0, ev 5 20 1, ev 30 5 2]).live_events → e.in_range) ∧
    ∃ t', mp_ass_flush_old_events (track_of [ev 0 10 0, ev 5 20 1, ev 30 5 2]) 35 = .ok t' ∧
      (track_of [ev 0 10 0, ev 5 20 1, ev 30 5 2]).live_events.drop
        (leading_expired (track_of [ev 0 10 0, ev 5 20 1, ev 30 5 2]) 35) <:+ t'.live_events ∧
      ∃ steps, t'.trace = (track_of [ev 0 10 0, ev 5 20 1, ev 30 5 2]).trace ++ steps ∧
        ∀ i e, Access.free i e ∈ steps →
          i < (track_of [ev 0 10 0, ev 5 20 1, ev 30 5 2]).n_events ∧
          (track_of [ev 0 10 0, ev 5 20 1, ev 30 5 2]).events[i]? = some e ∧
          e.Start + e.Duration < 35 :=
  ⟨by decide, by decide,
   C5_flush_spares_live (track_of [ev 0 10 0, ev 5 20 1, ev 30 5 2]) 35 (by decide) (by decide)⟩

/-- C6 (defect of the code).  Two events that both end before the watermark
100: `k = 2`, so the claim asks for release calls on the indices 0 and 1.  The
code calls `ass_free_event` on index 0 only; the event of index 1 is never
released, it is moved to slot 0 and stays in use. -/
theorem C6_flush_releases_too_few :
    leading_expired (track_of [ev 0 10 0, ev 5 20 1]) 100 = 2 ∧
    (mp_ass_flush_old_events (track_of [ev 0 10 0, ev 5 20 1]) 100).map
        (fun t => (released t.trace, t.n_events, t.live_events)) =
      .ok ([(0, ev 0 10 0)], 1, [ev 5 20 1]) := by
  decide

/-! ## Bitmap accumulation: one call and sequences of calls -/

/-- Characterisation of one call of `mp_ass_render_frame` on a list that meets
the precondition: the call returns a list that meets it again, with the
format tag set, `change_id` raised by one exactly when `changed` is non-zero,
and count, capacity and slots as described for the walk. -/
theorem mp_ass_render_frame_spec (junk : Nat → sub_bitmap) (imgs : List ASS_Image)
    (changed : Int) (res : sub_bitmaps) (h : res.ready) :
    ∃ res', mp_ass_render_frame junk imgs changed res = .ok res' ∧
      res'.ready ∧ res'.format = SUBBITMAP_LIBASS ∧
      res'.change_id = res.change_id + (if changed ≠ 0 then 1 else 0) ∧
      res'.num_parts = res.num_parts + (nonzero_fragments imgs).length ∧
      res.parts.length ≤ res'.parts.length ∧
      (∀ i, i < res.num_parts → res'.parts[i]? = res.parts[i]?) ∧
      (∀ j, res.num_parts ≤ j → j < res'.num_parts →
        res'.parts[j]? = ((nonzero_fragments imgs)[j - res.num_parts]?).map fragment_of) := by
  obtain ⟨hfmt, hfit⟩ := h
  simp only [sub_bitmaps.capacity, MP_TALLOC_AVAIL] at hfit
  by_cases hc : changed ≠ 0
  · obtain ⟨res', hrun, h1, h2, h3, h4, h5, h6, h7⟩ :=
      render_walk_spec junk imgs
        { res with change_id := res.change_id + 1, format := SUBBITMAP_LIBASS }
        res.parts.length rfl hfit
    refine ⟨res', ?_, ⟨Or.inr h1, h4⟩, h1, ?_, h3, h5, h6, h7⟩
    · simp only [mp_ass_render_frame, if_pos hc, if_pos hfmt, MP_TALLOC_AVAIL]
      exact hrun
    · rw [h2, if_pos hc]
  · obtain ⟨res', hrun, h1, h2, h3, h4, h5, h6, h7⟩ :=
      render_walk_spec junk imgs { res with format := SUBBITMAP_LIBASS }
        res.parts.length rfl hfit
    refine ⟨res', ?_, ⟨Or.inr h1, h4⟩, h1, ?_, h3, h5, h6, h7⟩
    · simp only [mp_ass_render_frame, if_neg hc, if_pos hfmt, MP_TALLOC_AVAIL]
      exact hrun
    · rw [h2, if_neg hc]
      simp

/-- A sequence of calls on a list that meets the precondition returns, and
raises `change_id` by the number of calls whose `changed` is non-zero. -/
theorem render_frames_spec (junk : Nat → sub_bitmap) :
    ∀ (calls : List (List ASS_Image × Int)) (res : sub_bitmaps), res.ready →
      ∃ res', render_frames junk calls res = .ok res' ∧ res'.ready ∧
        res'.change_id = res.change_id + ((calls.filter (fun c => decide (c.2 ≠ 0))).length : Nat) := by
  intro calls
  induction calls with
  | nil => intro res h; exact ⟨res, rfl, h, by simp⟩
  | cons c rest ih =>
    intro res h
    obtain ⟨imgs, changed⟩ := c
    obtain ⟨res₁, hrun₁, hready₁, -, hid₁, -⟩ :=
      mp_ass_render_frame_spec junk imgs changed res h
    obtain ⟨res', hrun, hready, hid⟩ := ih res₁ hready₁
    refine ⟨res', ?_, hready, ?_⟩
    · simp only [render_frames, hrun₁]
      exact hrun
    · rw [hid, hid₁, List.filter_cons]
      by_cases hc : changed ≠ 0
      · have hd : decide (changed ≠ 0) = true := decide_eq_true hc
        rw [if_pos hc, if_pos hd, List.length_cons]
        push_cast
        ring
      · have hd : ¬ (decide (changed ≠ 0) = true) := by simpa using hc
        rw [if_neg hc, if_neg hd]
        ring

/-! ## Bitmap accumulation: the claims -/

/-- C7.  On a list whose format tag is acceptable and whose count does not
exceed its capacity, the call succeeds, `num_parts` grows by exactly the
number of fragments with `w != 0` and `h != 0`, and the fragments appended
behind the old count are the output fragments of those images, one for one and
in the order of the image list. -/
theorem C7_render_appends_nonzero (junk : Nat → sub_bitmap) (imgs : List ASS_Image)
    (changed : Int) (res : sub_bitmaps)
    (hfmt : res.format = 0 ∨ res.format = SUBBITMAP_LIBASS)
    (hfit : res.num_parts ≤ res.capacity) :
    ∃ res', mp_ass_render_frame junk imgs changed res = .ok res' ∧
      res'.num_parts = res.num_parts + (nonzero_fragments imgs).length ∧
      res'.fragments.drop res.num_parts = (nonzero_fragments imgs).map fragment_of := by
  obtain ⟨res', hrun, -, -, -, hcount, -, -, hnew⟩ :=
    mp_ass_render_frame_spec junk imgs changed res ⟨hfmt, hfit⟩
  refine ⟨res', hrun, hcount, ?_⟩
  apply List.ext_getElem?
  intro j
  simp only [sub_bitmaps.fragments, List.getElem?_drop, List.getElem?_take, List.getElem?_map]
  by_cases hj : res.num_parts + j < res'.num_parts
  · rw [if_pos hj, hnew _ (by omega) hj]
    have : res.num_parts + j - res.num_parts = j := by omega
    rw [this]
  · rw [if_neg hj, List.getElem?_eq_none (by omega)]
    rfl

/-- C7 on three images, the middle one of zero width, appended to an empty
list. -/
theorem C7_render_appends_nonzero_witness :
    (empty_list.format = 0 ∨ empty_list.format = SUBBITMAP_LIBASS) ∧
    empty_list.num_parts ≤ empty_list.capacity ∧
    ∃ res', mp_ass_render_frame (fun _ => blank) [img 1 2 7, img 0 3 8, img 4 5 9] 1
        empty_list = .ok res' ∧
      res'.num_parts = empty_list.num_parts +
        (nonzero_fragments [img 1 2 7, img 0 3 8, img 4 5 9]).length ∧
      res'.fragments.drop empty_list.num_parts =
        (nonzero_fragments [img 1 2 7, img 0 3 8, img 4 5 9]).map fragment_of :=
  ⟨Or.inl rfl, by decide,
   C7_render_appends_nonzero (fun _ => blank) [img 1 2 7, img 0 3 8, img 4 5 9] 1 empty_list
     (Or.inl rfl) (by decide)⟩

/-- C8.  For the `j`-th fragment `img` of non-zero area of the image list, the
call writes an output fragment into slot `old num_parts + j`, a slot below the
new count, with `bitmap`, `stride` and `libass.color` copied from the image,
`w = dw = img.w`, `h = dh = img.h`, `x = img.dst_x` and `y = img.dst_y`. -/
theorem C8_render_copies_fields (junk : Nat → sub_bitmap) (imgs : List ASS_Image)
    (changed : Int) (res : sub_bitmaps)
    (hfmt : res.format = 0 ∨ res.format = SUBBITMAP_LIBASS)
    (hfit : res.num_parts ≤ res.capacity) :
    ∃ res', mp_ass_render_frame junk imgs changed res = .ok res' ∧
      ∀ (j : Nat) (img : ASS_Image), (nonzero_fragments imgs)[j]? = some img →
        res.num_parts + j < res'.num_parts ∧
        ∃ p, res'.parts[res.num_parts + j]? = some p ∧
          p.bitmap = img.bitmap ∧ p.stride = img.stride ∧ p.libass_color = img.color ∧
          p.w = img.w ∧ p.dw = img.w ∧ p.h = img.h ∧ p.dh = img.h ∧
          p.x = img.dst_x ∧ p.y = img.dst_y := by
  obtain ⟨res', hrun, -, -, -, hcount, -, -, hnew⟩ :=
    mp_ass_render_frame_spec junk imgs changed res ⟨hfmt, hfit⟩
  refine ⟨res', hrun, ?_⟩
  intro j img hj
  have hjlt : j < (nonzero_fragments imgs).length := by
    by_contra hcon
    rw [List.getElem?_eq_none (by omega)] at hj
    cases hj
  have hslot := hnew (res.num_parts + j) (by omega) (by omega)
  have : res.num_parts + j - res.num_parts = j := by omega
  rw [this, hj] at hslot
  exact ⟨by omega, fragment_of img, hslot, rfl, rfl, rfl, rfl, rfl, rfl, rfl, rfl, rfl⟩

/-- C8 on three images, the middle one of zero width, appended to an empty
list. -/
theorem C8_render_copies_fields_witness :
    (empty_list.format = 0 ∨ empty_list.format = SUBBITMAP_LIBASS) ∧
    empty_list.num_parts ≤ empty_list.capacity ∧
    ∃ res', mp_ass_render_frame (fun _ => blank) [img 1 2 7, img 0 3 8, img 4 5 9] 0
        empty_list = .ok res' ∧
      ∀ (j : Nat) (im : ASS_Image),
        (nonzero_fragments [img 1 2 7, img 0 3 8, img 4 5 9])[j]? = some im →
        empty_list.num_parts + j < res'.num_parts ∧
        ∃ p, res'.parts[empty_list.num_parts + j]? = some p ∧
          p.bitmap = im.bitmap ∧ p.stride = im.stride ∧ p.libass_color = im.color ∧
          p.w = im.w ∧ p.dw = im.w ∧ p.h = im.h ∧ p.dh = im.h ∧
          p.x = im.dst_x ∧ p.y = im.dst_y :=
  ⟨Or.inl rfl, by decide,
   C8_render_copies_fields (fun _ => blank) [img 1 2 7, img 0 3 8, img 4 5 9] 0 empty_list
     (Or.inl rfl) (by decide)⟩

/-- C9.  Two calls in a row on a list whose format tag is acceptable and whose
count does not exceed its capacity both succeed; the count after the second
call is the initial count plus the numbers of non-zero-area fragments of the
two image lists, and every fragment below the count reached by the first call
is the same after the second call, whether or not it reallocated. -/
theorem C9_render_additive (junk : Nat → sub_bitmap) (f1 f2 : List ASS_Image)
    (c1 c2 : Int) (res : sub_bitmaps)
    (hfmt : res.format = 0 ∨ res.format = SUBBITMAP_LIBASS)
    (hfit : res.num_parts ≤ res.capacity) :
    ∃ r1 r2, mp_ass_render_frame junk f1 c1 res = .ok r1 ∧
      mp_ass_render_frame junk f2 c2 r1 = .ok r2 ∧
      r1.num_parts = res.num_parts + (nonzero_fragments f1).length ∧
      r2.num_parts = res.num_parts + (nonzero_fragments f1).length +
        (nonzero_fragments f2).length ∧
      ∀ i, i < r1.num_parts → ∃ p, r1.parts[i]? = some p ∧ r2.parts[i]? = some p := by
  obtain ⟨r1, hrun1, hready1, -, -, hcount1, -, -, -⟩ :=
    mp_ass_render_frame_spec junk f1 c1 res ⟨hfmt, hfit⟩
  obtain ⟨r2, hrun2, -, -, -, hcount2, -, hold2, -⟩ :=
    mp_ass_render_frame_spec junk f2 c2 r1 hready1
  refine ⟨r1, r2, hrun1, hrun2, hcount1, by omega, ?_⟩
  intro i hi
  have hb : i < r1.parts.length := Nat.lt_of_lt_of_le hi hready1.2
  exact ⟨r1.parts[i], List.getElem?_eq_getElem hb, by rw [hold2 i hi, List.getElem?_eq_getElem hb]⟩

/-- C9 on the example of the specification: a call that appends 3 fragments
and a call that appends 4, the second list also holding an image of zero
height. -/
theorem C9_render_additive_witness :
    (empty_list.format = 0 ∨ empty_list.format = SUBBITMAP_LIBASS) ∧
    empty_list.num_parts ≤ empty_list.capacity ∧
    ∃ r1 r2,
      mp_ass_render_frame (fun _ => blank) [img 1 1 1, img 2 2 2, img 3 3 3] 1
        empty_list = .ok r1 ∧
      mp_ass_render_frame (fun _ => blank)
        [img 4 4 4, img 5 0 5, img 6 6 6, img 7 7 7, img 8 8 8] 0 r1 = .ok r2 ∧
      r1.num_parts = empty_list.num_parts +
        (nonzero_fragments [img 1 1 1, img 2 2 2, img 3 3 3]).length ∧
      r2.num_parts = empty_list.num_parts +
        (nonzero_fragments [img 1 1 1, img 2 2 2, img 3 3 3]).length +
        (nonzero_fragments [img 4 4 4, img 5 0 5, img 6 6 6, img 7 7 7, img 8 8 8]).length ∧
      ∀ i, i < r1.num_parts → ∃ p, r1.parts[i]? = some p ∧ r2.parts[i]? = some p :=
  ⟨Or.inl rfl, by decide,
   C9_render_additive (fun _ => blank) [img 1 1 1, img 2 2 2, img 3 3 3]
     [img 4 4 4, img 5 0 5, img 6 6 6, img 7 7 7, img 8 8 8] 1 0 empty_list
     (Or.inl rfl) (by decide)⟩

/-- C10.  A call on a list that meets the precondition succeeds, leaves the
list meeting the precondition, and changes `change_id` by exactly 1 when
`changed` is non-zero and not at all when it is zero.  Hence a sequence of
calls succeeds and raises `change_id` by the number of its calls with
`changed` non-zero: by the number `N` of calls when all of them report a
change, by nothing when none does.  (The counter is an unbounded integer.) -/
theorem C10_render_change_id (junk : Nat → sub_bitmap)
    (calls : List (List ASS_Image × Int)) (res : sub_bitmaps)
    (hfmt : res.format = 0 ∨ res.format = SUBBITMAP_LIBASS)
    (hfit : res.num_parts ≤ res.capacity) :
    (∀ (imgs : List ASS_Image) (changed : Int) (r : sub_bitmaps), r.ready →
      ∃ r', mp_ass_render_frame junk imgs changed r = .ok r' ∧ r'.ready ∧
        (changed ≠ 0 → r'.change_id = r.change_id + 1) ∧
        (changed = 0 → r'.change_id = r.change_id)) ∧
    ∃ res', render_frames junk calls res = .ok res' ∧
      res'.change_id =
        res.change_id + ((calls.filter (fun c => decide (c.2 ≠ 0))).length : Nat) ∧
      ((∀ c, c ∈ calls → c.2 ≠ 0) → res'.change_id = res.change_id + (calls.length : Nat)) ∧
      ((∀ c, c ∈ calls → c.2 = 0) → res'.change_id = res.change_id) := by
  constructor
  · intro imgs changed r hr
    obtain ⟨r', hrun, hready, -, hid, -⟩ := mp_ass_render_frame_spec junk imgs changed r hr
    refine ⟨r', hrun, hready, ?_, ?_⟩
    · intro hc
      rw [hid, if_pos hc]
    · intro hc
      rw [hid, if_neg (by simpa using hc)]
      simp
  · obtain ⟨res', hrun, -, hid⟩ := render_frames_spec junk calls res ⟨hfmt, hfit⟩
    refine ⟨res', hrun, hid, ?_, ?_⟩
    · intro hall
      have : calls.filter (fun c => decide (c.2 ≠ 0)) = calls :=
        List.filter_eq_self.mpr (fun c hc => decide_eq_true (hall c hc))
      rw [hid, this]
    · intro hall
      have : calls.filter (fun c => decide (c.2 ≠ 0)) = [] :=
        List.filter_eq_nil_iff.mpr (fun c hc => by simpa using hall c hc)
      rw [hid, this]
      simp

/-- C10 on three calls, the first and the last reporting a change. -/
theorem C10_render_change_id_witness :
    (empty_list.format = 0 ∨ empty_list.format = SUBBITMAP_LIBASS) ∧
    empty_list.num_parts ≤ empty_list.capacity ∧
    ∃ res', render_frames (fun _ => blank)
        [([img 1 1 1], 1), ([], 0), ([img 0 2 2, img 3 3 3], 5)] empty_list = .ok res' ∧
      res'.change_id = empty_list.change_id + 2 :=
  ⟨Or.inl rfl, by decide,
   (C10_render_change_id (fun _ => blank)
      [([img 1 1 1], 1), ([], 0), ([img 0 2 2, img 3 3 3], 5)] empty_list
      (Or.inl rfl) (by decide)).2.imp (fun _ h => ⟨h.1, h.2.1⟩)⟩

/-! ## Bitmap accumulation: the walk, step by step -/

/-- One iteration of the walk, entered with `num_parts_alloc` equal to the
capacity and a count within the capacity, returns a list `r` whose count is
within its capacity again, and the walk over `img :: next` continues from `r`
with `num_parts_alloc` equal to the capacity of `r`.  An image of zero area
leaves the list alone; any other image raises the count by one and replaces
the capacity `c` by `next_capacity c` exactly when the count had reached it. -/
theorem render_walk_cons (junk : Nat → sub_bitmap) (img : ASS_Image) (res : sub_bitmaps)
    (alloc : Nat) (halloc : alloc = res.parts.length) (hfit : res.num_parts ≤ res.parts.length) :
    ∃ r, render_walk junk [img] res alloc = .ok r ∧
      r.num_parts ≤ r.parts.length ∧
      (∀ next, render_walk junk (img :: next) res alloc =
        render_walk junk next r r.parts.length) ∧
      ((img.w = 0 ∨ img.h = 0) → r = res) ∧
      (¬ (img.w = 0 ∨ img.h = 0) →
        r.num_parts = res.num_parts + 1 ∧
        r.parts[res.num_parts]? = some (fragment_of img) ∧
        r.parts.length = (if res.num_parts ≥ res.parts.length
          then next_capacity res.parts.length else res.parts.length)) := by
  by_cases hz : img.w = 0 ∨ img.h = 0
  · refine ⟨res, ?_, hfit, ?_, fun _ => rfl, fun h => absurd hz h⟩
    · simp only [render_walk, if_pos hz]
    · intro next
      simp only [render_walk, if_pos hz, halloc]
  · subst halloc
    by_cases hg : res.num_parts ≥ res.parts.length
    · have hgrow := MPMAX_grows res.parts.length
      have hroom : res.num_parts <
          (talloc_realloc junk res.parts (MPMAX (res.parts.length * 2) 32)).length := by
        rw [talloc_realloc_length]; omega
      have hslot := List.getElem?_eq_getElem hroom
      refine ⟨{ res with
                parts := (talloc_realloc junk res.parts
                  (MPMAX (res.parts.length * 2) 32)).set res.num_parts (fragment_of img)
                num_parts := res.num_parts + 1 }, ?_, ?_, ?_, fun h => absurd h hz,
        fun _ => ⟨rfl, List.getElem?_set_self hroom, ?_⟩⟩
      · simp only [render_walk, if_neg hz, if_pos hg, hslot]
        rfl
      · simp only [List.length_set]
        omega
      · intro next
        simp only [render_walk, if_neg hz, if_pos hg, hslot, List.length_set,
          talloc_realloc_length]
        rfl
      · simp only [List.length_set, talloc_realloc_length, if_pos hg, next_capacity]
    · have hroom : res.num_parts < res.parts.length := by omega
      have hslot := List.getElem?_eq_getElem hroom
      refine ⟨{ res with
                parts := res.parts.set res.num_parts (fragment_of img)
                num_parts := res.num_parts + 1 }, ?_, ?_, ?_, fun h => absurd h hz,
        fun _ => ⟨rfl, List.getElem?_set_self hroom, ?_⟩⟩
      · simp only [render_walk, if_neg hz, if_neg hg, hslot]
        rfl
      · simp only [List.length_set]
        omega
      · intro next
        simp only [render_walk, if_neg hz, if_neg hg, hslot, List.length_set]
        rfl
      · simp only [List.length_set, if_neg hg]

/-- The walk over `pre ++ post` is the walk over `pre`, which returns a list
`r` with its count within its capacity, followed by the walk over `post` from
`r`. -/
theorem render_walk_append (junk : Nat → sub_bitmap) :
    ∀ (pre post : List ASS_Image) (res : sub_bitmaps) (alloc : Nat),
      alloc = res.parts.length → res.num_parts ≤ res.parts.length →
      ∃ r, render_walk junk pre res alloc = .ok r ∧ r.num_parts ≤ r.parts.length ∧
        render_walk junk (pre ++ post) res alloc = render_walk junk post r r.parts.length := by
  intro pre
  induction pre with
  | nil =>
    intro post res alloc halloc hfit
    exact ⟨res, rfl, hfit, by rw [halloc]; rfl⟩
  | cons img pre ih =>
    intro post res alloc halloc hfit
    obtain ⟨r₁, -, hfit₁, hnext, -, -⟩ := render_walk_cons junk img res alloc halloc hfit
    obtain ⟨r, hrun, hfitr, hrest⟩ := ih post r₁ r₁.parts.length rfl hfit₁
    refine ⟨r, by rw [hnext pre]; exact hrun, hfitr, ?_⟩
    rw [List.cons_append, hnext (pre ++ post)]
    exact hrest

/-- Under the format precondition a call is the walk from the list with the
header of lines 105-108 applied: `change_id` raised when `changed` is
non-zero, the format tag set, storage and count as before. -/
theorem render_frame_eq_walk (junk : Nat → sub_bitmap) (changed : Int) (res : sub_bitmaps)
    (hfmt : res.format = 0 ∨ res.format = SUBBITMAP_LIBASS) :
    ∃ res₀, res₀.parts = res.parts ∧ res₀.num_parts = res.num_parts ∧
      res₀.format = SUBBITMAP_LIBASS ∧
      res₀.change_id = res.change_id + (if changed ≠ 0 then 1 else 0) ∧
      ∀ imgs, mp_ass_render_frame junk imgs changed res =
        render_walk junk imgs res₀ res.parts.length := by
  by_cases hc : changed ≠ 0
  · refine ⟨{ res with change_id := res.change_id + 1, format := SUBBITMAP_LIBASS },
      rfl, rfl, rfl, by simp [hc], ?_⟩
    intro imgs
    simp only [mp_ass_render_frame, if_pos hc, if_pos hfmt, MP_TALLOC_AVAIL]
  · refine ⟨{ res with format := SUBBITMAP_LIBASS }, rfl, rfl, rfl, by simp [hc], ?_⟩
    intro imgs
    simp only [mp_ass_render_frame, if_neg hc, if_pos hfmt, MP_TALLOC_AVAIL]

/-- C11.  On a list whose format tag is acceptable and whose count does not
exceed its capacity, the call returns with the count within the capacity, and
the same holds at every point of the walk: for every split of the image list
into the part already walked and the rest, the list `r` reached after the
first part has its count within its capacity, and when the next image has
non-zero area the slot written for it, index `r.num_parts`, lies strictly
below the capacity at that moment (the capacity of the list `r1` reached after
the append), and the count after the append is within that capacity. -/
theorem C11_render_count_within_capacity (junk : Nat → sub_bitmap) (imgs : List ASS_Image)
    (changed : Int) (res : sub_bitmaps)
    (hfmt : res.format = 0 ∨ res.format = SUBBITMAP_LIBASS)
    (hfit : res.num_parts ≤ res.capacity) :
    ∃ res', mp_ass_render_frame junk imgs changed res = .ok res' ∧
      res'.num_parts ≤ res'.capacity ∧
      ∀ pre post, imgs = pre ++ post →
        ∃ r, mp_ass_render_frame junk pre changed res = .ok r ∧
          r.num_parts ≤ r.capacity ∧
          render_walk junk post r r.capacity = .ok res' ∧
          ∀ img rest, post = img :: rest → ¬ (img.w = 0 ∨ img.h = 0) →
            ∃ r1, mp_ass_render_frame junk (pre ++ [img]) changed res = .ok r1 ∧
              r.num_parts < r1.capacity ∧
              r1.parts[r.num_parts]? = some (fragment_of img) ∧
              r1.num_parts = r.num_parts + 1 ∧ r1.num_parts ≤ r1.capacity := by
  obtain ⟨res₀, hparts, hcount, -, -, hwalk⟩ := render_frame_eq_walk junk changed res hfmt
  simp only [sub_bitmaps.capacity, MP_TALLOC_AVAIL] at hfit ⊢
  have halloc : res.parts.length = res₀.parts.length := by rw [hparts]
  have hfit₀ : res₀.num_parts ≤ res₀.parts.length := by rw [hparts, hcount]; exact hfit
  obtain ⟨res', hrun, -, -, -, hfit', -⟩ :=
    render_walk_spec junk imgs res₀ res.parts.length halloc hfit₀
  refine ⟨res', by rw [hwalk]; exact hrun, hfit', ?_⟩
  intro pre post hsplit
  obtain ⟨r, hpre, hfitr, hrest⟩ :=
    render_walk_append junk pre post res₀ res.parts.length halloc hfit₀
  refine ⟨r, by rw [hwalk]; exact hpre, hfitr, ?_, ?_⟩
  · rw [← hrest, ← hsplit]
    exact hrun
  · intro img rest _ hnz
    obtain ⟨r1, hstep, hfit1, -, -, hnew⟩ := render_walk_cons junk img r r.parts.length rfl hfitr
    obtain ⟨hcount1, hslot, -⟩ := hnew hnz
    obtain ⟨r2, hpre2, -, hone⟩ :=
      render_walk_append junk pre [img] res₀ res.parts.length halloc hfit₀
    rw [hpre] at hpre2
    cases hpre2
    refine ⟨r1, by rw [hwalk, hone]; exact hstep, by omega, hslot, hcount1, hfit1⟩

/-- C11 on three images, the middle one of zero width, appended to an empty
list. -/
theorem C11_render_count_within_capacity_witness :
    (empty_list.format = 0 ∨ empty_list.format = SUBBITMAP_LIBASS) ∧
    empty_list.num_parts ≤ empty_list.capacity ∧
    ∃ res', mp_ass_render_frame (fun _ => blank) [img 1 2 7, img 0 3 8, img 4 5 9] 1
        empty_list = .ok res' ∧
      res'.num_parts ≤ res'.capacity :=
  ⟨Or.inl rfl, by decide,
   (C11_render_count_within_capacity (fun _ => blank) [img 1 2 7, img 0 3 8, img 4 5 9] 1
      empty_list (Or.inl rfl) (by decide)).imp (fun _ h => ⟨h.1, h.2.1⟩)⟩

/-! ## Bitmap accumulation: capacity, format tag, empty contributions -/

/-- The macro `MPMAX` is the maximum. -/
theorem MPMAX_eq_max (a b : Nat) : MPMAX a b = max a b := by
  unfold MPMAX
  split <;> omega

/-- The walk leaves the capacity alone when the fragments it appends fit into
the storage at hand. -/
theorem render_walk_no_growth (junk : Nat → sub_bitmap) :
    ∀ (imgs : List ASS_Image) (res : sub_bitmaps) (alloc : Nat),
      alloc = res.parts.length →
      res.num_parts + (nonzero_fragments imgs).length ≤ res.parts.length →
      ∀ res', render_walk junk imgs res alloc = .ok res' →
        res'.parts.length = res.parts.length := by
  intro imgs
  induction imgs with
  | nil =>
    intro res alloc _ _ res' hrun
    simp only [render_walk] at hrun
    cases hrun
    rfl
  | cons img next ih =>
    intro res alloc halloc hroom res' hrun
    obtain ⟨r, -, -, hnext, hzero, hnew⟩ :=
      render_walk_cons junk img res alloc halloc (by omega)
    rw [hnext next] at hrun
    by_cases hz : img.w = 0 ∨ img.h = 0
    · have hr := hzero hz
      subst hr
      rw [nonzero_fragments_cons_zero img next hz] at hroom
      exact ih r r.parts.length rfl hroom res' hrun
    · obtain ⟨hcount, -, hcap⟩ := hnew hz
      rw [nonzero_fragments_cons_nonzero img next hz, List.length_cons] at hroom
      rw [if_neg (by omega)] at hcap
      rw [← hcap]
      exact ih r r.parts.length rfl (by omega) res' hrun

/-- A walk over images that all have zero area returns the list as it was. -/
theorem render_walk_all_zero (junk : Nat → sub_bitmap) :
    ∀ (imgs : List ASS_Image) (res : sub_bitmaps) (alloc : Nat),
      (∀ img, img ∈ imgs → img.w = 0 ∨ img.h = 0) →
      render_walk junk imgs res alloc = .ok res := by
  intro imgs
  induction imgs with
  | nil => intro res alloc _; rfl
  | cons img next ih =>
    intro res alloc hzero
    have hz := hzero img (List.mem_cons_self _ _)
    simp only [render_walk, if_pos hz]
    exact ih res alloc (fun i hi => hzero i (List.mem_cons_of_mem _ hi))

/-- A walk either stops on a write outside the storage or returns a list with
the format tag it started with; it never fails an assertion. -/
theorem render_walk_format (junk : Nat → sub_bitmap) :
    ∀ (imgs : List ASS_Image) (res : sub_bitmaps) (alloc : Nat),
      render_walk junk imgs res alloc = .error .out_of_bounds ∨
      ∃ res', render_walk junk imgs res alloc = .ok res' ∧ res'.format = res.format := by
  intro imgs
  induction imgs with
  | nil => intro res alloc; exact Or.inr ⟨res, rfl, rfl⟩
  | cons img next ih =>
    intro res alloc
    by_cases hz : img.w = 0 ∨ img.h = 0
    · simp only [render_walk, if_pos hz]
      exact ih res alloc
    · simp only [render_walk, if_neg hz]
      split
      · exact Or.inl rfl
      · exact ih _ _

/-- A sequence of calls on a list that meets the precondition returns a list
that meets it, with the count raised by the number of fragments appended. -/
theorem render_frames_count (junk : Nat → sub_bitmap) :
    ∀ (calls : List (List ASS_Image × Int)) (res : sub_bitmaps), res.ready →
      ∃ res', render_frames junk calls res = .ok res' ∧ res'.ready ∧
        res'.num_parts = res.num_parts + appended calls := by
  intro calls
  induction calls with
  | nil => intro res h; exact ⟨res, rfl, h, rfl⟩
  | cons c rest ih =>
    intro res h
    obtain ⟨imgs, changed⟩ := c
    obtain ⟨res₁, hrun₁, hready₁, -, -, hcount₁, -⟩ :=
      mp_ass_render_frame_spec junk imgs changed res h
    obtain ⟨res', hrun, hready, hcount⟩ := ih res₁ hready₁
    refine ⟨res', ?_, hready, ?_⟩
    · simp only [render_frames, hrun₁]
      exact hrun
    · simp only [appended]
      omega

/-- C12.  On a list whose format tag is acceptable and whose count does not
exceed its capacity, a call never lowers the capacity and leaves it unchanged
when the old count plus the number of non-zero-area fragments does not exceed
the old capacity.  At every image of the walk, with `r` the list before and
`r1` the list after that image, the capacity changes only when the image has
non-zero area and the count has reached the capacity, and then from `c` to
`max (2 * c) 32`.  A sequence of calls that starts from a count of 0 and
appends `M` fragments ends with count `M` and a capacity of at least `M`. -/
theorem C12_render_capacity_growth (junk : Nat → sub_bitmap) (imgs : List ASS_Image)
    (changed : Int) (res : sub_bitmaps) (calls : List (List ASS_Image × Int))
    (hfmt : res.format = 0 ∨ res.format = SUBBITMAP_LIBASS)
    (hfit : res.num_parts ≤ res.capacity) :
    (∃ res', mp_ass_render_frame junk imgs changed res = .ok res' ∧
      res.capacity ≤ res'.capacity ∧
      (res.num_parts + (nonzero_fragments imgs).length ≤ res.capacity →
        res'.capacity = res.capacity) ∧
      ∀ pre img post, imgs = pre ++ img :: post →
        ∃ r r1, mp_ass_render_frame junk pre changed res = .ok r ∧
          mp_ass_render_frame junk (pre ++ [img]) changed res = .ok r1 ∧
          r.capacity ≤ r1.capacity ∧
          r1.capacity =
            if (img.w ≠ 0 ∧ img.h ≠ 0) ∧ r.num_parts ≥ r.capacity
            then max (2 * r.capacity) 32 else r.capacity) ∧
    (res.num_parts = 0 →
      ∃ res', render_frames junk calls res = .ok res' ∧
        res'.num_parts = appended calls ∧ appended calls ≤ res'.capacity) := by
  constructor
  · obtain ⟨res₀, hparts, hcount, -, -, hwalk⟩ := render_frame_eq_walk junk changed res hfmt
    simp only [sub_bitmaps.capacity, MP_TALLOC_AVAIL] at hfit ⊢
    have halloc : res.parts.length = res₀.parts.length := by rw [hparts]
    have hfit₀ : res₀.num_parts ≤ res₀.parts.length := by rw [hparts, hcount]; exact hfit
    obtain ⟨res', hrun, -, -, -, -, hmono, -⟩ :=
      render_walk_spec junk imgs res₀ res.parts.length halloc hfit₀
    refine ⟨res', by rw [hwalk]; exact hrun, by rw [← halloc] at hmono; exact hmono, ?_, ?_⟩
    · intro hroom
      have := render_walk_no_growth junk imgs res₀ res.parts.length halloc
        (by rw [hparts, hcount]; exact hroom) res' hrun
      rw [this, hparts]
    · intro pre img post _
      obtain ⟨r, hpre, hfitr, -⟩ :=
        render_walk_append junk pre [img] res₀ res.parts.length halloc hfit₀
      obtain ⟨r2, hpre2, -, hone⟩ :=
        render_walk_append junk pre [img] res₀ res.parts.length halloc hfit₀
      rw [hpre] at hpre2
      cases hpre2
      obtain ⟨r1, hstep, -, -, hzero, hnew⟩ :=
        render_walk_cons junk img r r.parts.length rfl hfitr
      refine ⟨r, r1, by rw [hwalk]; exact hpre, by rw [hwalk, hone]; exact hstep, ?_⟩
      by_cases hz : img.w = 0 ∨ img.h = 0
      · have hr := hzero hz
        subst hr
        have hnot : ¬ ((img.w ≠ 0 ∧ img.h ≠ 0) ∧ r1.num_parts ≥ r1.parts.length) := by
          intro h
          rcases hz with h0 | h0
          · exact h.1.1 h0
          · exact h.1.2 h0
        rw [if_neg hnot]
        exact ⟨Nat.le_refl _, rfl⟩
      · obtain ⟨-, -, hcap⟩ := hnew hz
        have hnz : img.w ≠ 0 ∧ img.h ≠ 0 :=
          ⟨fun h => hz (Or.inl h), fun h => hz (Or.inr h)⟩
        by_cases hg : r.num_parts ≥ r.parts.length
        · rw [if_pos hg] at hcap
          rw [if_pos ⟨hnz, hg⟩, hcap, next_capacity, MPMAX_eq_max, Nat.mul_comm]
          exact ⟨by omega, rfl⟩
        · rw [if_neg hg] at hcap
          rw [if_neg (fun h => hg h.2), hcap]
          exact ⟨Nat.le_refl _, rfl⟩
  · intro hzero
    obtain ⟨res', hrun, hready, hcount⟩ := render_frames_count junk calls res ⟨hfmt, hfit⟩
    refine ⟨res', hrun, by omega, ?_⟩
    have := hready.2
    omega

/-- C12 on the empty list: a call with three images, and a sequence of two
calls that appends three fragments. -/
theorem C12_render_capacity_growth_witness :
    (empty_list.format = 0 ∨ empty_list.format = SUBBITMAP_LIBASS) ∧
    empty_list.num_parts ≤ empty_list.capacity ∧
    (empty_list.num_parts = 0 →
      ∃ res', render_frames (fun _ => blank)
          [([img 1 1 1, img 0 2 2], 1), ([img 3 3 3, img 4 4 4], 0)] empty_list = .ok res' ∧
        res'.num_parts = appended [([img 1 1 1, img 0 2 2], 1), ([img 3 3 3, img 4 4 4], 0)] ∧
        appended [([img 1 1 1, img 0 2 2], 1), ([img 3 3 3, img 4 4 4], 0)] ≤ res'.capacity) :=
  ⟨Or.inl rfl, by decide,
   (C12_render_capacity_growth (fun _ => blank) [img 1 2 7, img 0 3 8, img 4 5 9] 1 empty_list
      [([img 1 1 1, img 0 2 2], 1), ([img 3 3 3, img 4 4 4], 0)] (Or.inl rfl) (by decide)).2⟩

/-- C13.  When the format tag is acceptable and the renderer returns no image
or only images with `w = 0` or `h = 0`, the call returns the list with
`num_parts` and the whole of `parts` (hence the capacity and every entry) as
before; only `change_id`, raised when `changed` is non-zero, and `format`,
set to the libass tag, can differ. -/
theorem C13_render_nothing_to_append (junk : Nat → sub_bitmap) (imgs : List ASS_Image)
    (changed : Int) (res : sub_bitmaps)
    (hfmt : res.format = 0 ∨ res.format = SUBBITMAP_LIBASS)
    (hzero : ∀ img, img ∈ imgs → img.w = 0 ∨ img.h = 0) :
    mp_ass_render_frame junk imgs changed res =
      .ok { res with
            change_id := res.change_id + (if changed ≠ 0 then 1 else 0)
            format := SUBBITMAP_LIBASS } ∧
    mp_ass_render_frame junk [] changed res =
      .ok { res with
            change_id := res.change_id + (if changed ≠ 0 then 1 else 0)
            format := SUBBITMAP_LIBASS } := by
  have key : ∀ l : List ASS_Image, (∀ img, img ∈ l → img.w = 0 ∨ img.h = 0) →
      mp_ass_render_frame junk l changed res =
        .ok { res with
              change_id := res.change_id + (if changed ≠ 0 then 1 else 0)
              format := SUBBITMAP_LIBASS } := by
    intro l hl
    by_cases hc : changed ≠ 0
    · simp only [mp_ass_render_frame, if_pos hc, if_pos hfmt]
      rw [render_walk_all_zero junk l _ _ hl]
    · simp only [mp_ass_render_frame, if_neg hc, if_pos hfmt]
      rw [render_walk_all_zero junk l _ _ hl]
      simp
  exact ⟨key imgs hzero, key [] (fun _ h => absurd h (List.not_mem_nil _))⟩

/-- C13 on a full list of capacity 1 and two images of zero area. -/
theorem C13_render_nothing_to_append_witness :
    ((1 : Int) = 0 ∨ (1 : Int) = SUBBITMAP_LIBASS) ∧
    (∀ i, i ∈ [img 0 3 8, img 2 0 9] → i.w = 0 ∨ i.h = 0) ∧
    mp_ass_render_frame (fun _ => blank) [img 0 3 8, img 2 0 9] 1
        { format := 1, parts := [blank], num_parts := 1, change_id := 4 } =
      .ok { format := SUBBITMAP_LIBASS, parts := [blank], num_parts := 1, change_id := 5 } :=
  ⟨Or.inr rfl, by decide,
   (C13_render_nothing_to_append (fun _ => blank) [img 0 3 8, img 2 0 9] 1
      { format := 1, parts := [blank], num_parts := 1, change_id := 4 }
      (Or.inr rfl) (by decide)).1⟩

/-- C14.  When the format tag is unset (0) or the libass tag before the call,
the assertion of line 107 does not fail, every list the call returns has the
libass tag, and the call does return when the count is within the capacity;
so the property that the tag is unset or the libass tag holds again. -/
theorem C14_render_format_tag (junk : Nat → sub_bitmap) (imgs : List ASS_Image)
    (changed : Int) (res : sub_bitmaps)
    (hfmt : res.format = 0 ∨ res.format = SUBBITMAP_LIBASS) :
    mp_ass_render_frame junk imgs changed res ≠ .error .assertion ∧
    (∀ res', mp_ass_render_frame junk imgs changed res = .ok res' →
      res'.format = SUBBITMAP_LIBASS ∧ (res'.format = 0 ∨ res'.format = SUBBITMAP_LIBASS)) ∧
    (res.num_parts ≤ res.capacity →
      ∃ res', mp_ass_render_frame junk imgs changed res = .ok res' ∧
        res'.format = SUBBITMAP_LIBASS) := by
  obtain ⟨res₀, -, -, hfmt₀, -, hwalk⟩ := render_frame_eq_walk junk changed res hfmt
  refine ⟨?_, ?_, ?_⟩
  · rw [hwalk]
    rcases render_walk_format junk imgs res₀ res.parts.length with h | ⟨r, h, -⟩
    · rw [h]; intro hcon; cases hcon
    · rw [h]; intro hcon; cases hcon
  · intro res' hrun
    rw [hwalk] at hrun
    rcases render_walk_format junk imgs res₀ res.parts.length with h | ⟨r, h, hf⟩
    · rw [h] at hrun; cases hrun
    · rw [h] at hrun
      cases hrun
      exact ⟨by rw [hf, hfmt₀], Or.inr (by rw [hf, hfmt₀])⟩
  · intro hfit
    obtain ⟨res', hrun, -, hf, -⟩ := mp_ass_render_frame_spec junk imgs changed res ⟨hfmt, hfit⟩
    exact ⟨res', hrun, hf⟩

/-- C14 on a list that already carries the libass tag. -/
theorem C14_render_format_tag_witness :
    ((1 : Int) = 0 ∨ (1 : Int) = SUBBITMAP_LIBASS) ∧
    mp_ass_render_frame (fun _ => blank) [img 1 2 7]  0
      { format := 1, parts := [blank], num_parts := 0, change_id := 4 } ≠
        .error .assertion :=
  ⟨Or.inr rfl,
   (C14_render_format_tag (fun _ => blank) [img 1 2 7] 0
      { format := 1, parts := [blank], num_parts := 0, change_id := 4 } (Or.inr rfl)).1⟩

/-! ## Bitmap accumulation: the capacity in closed form -/

/-- One more append keeps the capacity the first sufficient term of the
capacity sequence. -/
theorem first_capacity_for_step (c₀ n c : Nat) (h : first_capacity_for c₀ n c) :
    first_capacity_for c₀ (n + 1) (if n ≥ c then next_capacity c else c) := by
  obtain ⟨j, hc, hn, hlow⟩ := h
  by_cases hg : n ≥ c
  · rw [if_pos hg]
    have hgrow : c < next_capacity c := MPMAX_grows c
    refine ⟨j + 1, ?_, by omega, ?_⟩
    · rw [Function.iterate_succ_apply', ← hc]
    · intro i hi
      rcases Nat.lt_succ_iff_lt_or_eq.mp hi with h | h
      · have := hlow i h
        omega
      · subst h
        omega
  · rw [if_neg hg]
    exact ⟨j, hc, by omega, fun i hi => by have := hlow i hi; omega⟩

/-- The walk keeps the capacity the first term of the capacity sequence that is
at least the count. -/
theorem render_walk_first_capacity (junk : Nat → sub_bitmap) (c₀ : Nat) :
    ∀ (imgs : List ASS_Image) (res : sub_bitmaps) (alloc : Nat),
      alloc = res.parts.length →
      first_capacity_for c₀ res.num_parts res.parts.length →
      ∀ res', render_walk junk imgs res alloc = .ok res' →
        first_capacity_for c₀ res'.num_parts res'.parts.length := by
  intro imgs
  induction imgs with
  | nil =>
    intro res alloc _ h res' hrun
    simp only [render_walk] at hrun
    cases hrun
    exact h
  | cons img next ih =>
    intro res alloc halloc h res' hrun
    have hfit : res.num_parts ≤ res.parts.length := h.choose_spec.2.1
    obtain ⟨r, -, -, hnext, hzero, hnew⟩ := render_walk_cons junk img res alloc halloc hfit
    rw [hnext next] at hrun
    by_cases hz : img.w = 0 ∨ img.h = 0
    · have hr := hzero hz
      subst hr
      exact ih r r.parts.length rfl h res' hrun
    · obtain ⟨hcount, -, hcap⟩ := hnew hz
      have hstep := first_capacity_for_step c₀ res.num_parts res.parts.length h
      rw [← hcap, ← hcount] at hstep
      exact ih r r.parts.length rfl hstep res' hrun

/-- A sequence of calls keeps the capacity the first term of the capacity
sequence that is at least the count. -/
theorem render_frames_first_capacity (junk : Nat → sub_bitmap) (c₀ : Nat) :
    ∀ (calls : List (List ASS_Image × Int)) (res : sub_bitmaps),
      (res.format = 0 ∨ res.format = SUBBITMAP_LIBASS) →
      first_capacity_for c₀ res.num_parts res.parts.length →
      ∀ res', render_frames junk calls res = .ok res' →
        first_capacity_for c₀ res'.num_parts res'.parts.length := by
  intro calls
  induction calls with
  | nil =>
    intro res _ h res' hrun
    simp only [render_frames] at hrun
    cases hrun
    exact h
  | cons c rest ih =>
    intro res hfmt h res' hrun
    obtain ⟨imgs, changed⟩ := c
    have hfit : res.num_parts ≤ res.parts.length := h.choose_spec.2.1
    obtain ⟨res₀, hparts, hcount, -, -, hwalk⟩ := render_frame_eq_walk junk changed res hfmt
    obtain ⟨res₁, hrun₁, hready₁, -⟩ :=
      mp_ass_render_frame_spec junk imgs changed res ⟨hfmt, hfit⟩
    simp only [render_frames, hrun₁] at hrun
    rw [hwalk] at hrun₁
    have h₁ := render_walk_first_capacity junk c₀ imgs res₀ res.parts.length
      (by rw [hparts]) (by rw [hparts, hcount]; exact h) res₁ hrun₁
    exact ih res₁ hready₁.1 h₁ res' hrun

/-- From capacity 0 the capacity sequence runs 32, 64, 128, ... -/
theorem next_capacity_iterate_zero (j : Nat) :
    Nat.iterate next_capacity (j + 1) 0 = 32 * 2 ^ j := by
  induction j with
  | zero => rfl
  | succ j ih =>
    rw [Function.iterate_succ_apply', ih, next_capacity, MPMAX_eq_max, pow_succ]
    have : 0 < 2 ^ j := Nat.pow_pos (by omega)
    omega

/-- C16.  With `c₀` the capacity of a list whose format tag is acceptable and
whose count does not exceed `c₀`, a sequence of calls without reset returns a
list whose count is the old count plus the number of fragments appended and
whose capacity is the first term of the sequence `c₀`, `g c₀`, `g (g c₀)`,
... with `g c = max (2 * c) 32` that is at least that count; it is `c₀` itself
when the count stays within `c₀`.  From capacity 0 and count 0, after `M >= 1`
appended fragments the capacity is `32 * 2 ^ j` for the least `j` with
`32 * 2 ^ j >= M`, however the fragments are spread over the calls. -/
theorem C16_render_capacity_closed_form (junk : Nat → sub_bitmap)
    (calls : List (List ASS_Image × Int)) (res : sub_bitmaps)
    (hfmt : res.format = 0 ∨ res.format = SUBBITMAP_LIBASS)
    (hfit : res.num_parts ≤ res.capacity) :
    (∀ c, next_capacity c = max (2 * c) 32) ∧
    ∃ res', render_frames junk calls res = .ok res' ∧
      res'.num_parts = res.num_parts + appended calls ∧
      first_capacity_for res.capacity res'.num_parts res'.capacity ∧
      (res'.num_parts ≤ res.capacity → res'.capacity = res.capacity) ∧
      (res.capacity = 0 → res.num_parts = 0 → 1 ≤ appended calls →
        ∃ j, res'.capacity = 32 * 2 ^ j ∧ appended calls ≤ 32 * 2 ^ j ∧
          ∀ i, i < j → 32 * 2 ^ i < appended calls) := by
  refine ⟨fun c => by rw [next_capacity, MPMAX_eq_max, Nat.mul_comm], ?_⟩
  obtain ⟨res', hrun, -, hcount⟩ := render_frames_count junk calls res ⟨hfmt, hfit⟩
  have hfirst : first_capacity_for res.capacity res'.num_parts res'.capacity :=
    render_frames_first_capacity junk res.capacity calls res hfmt
      ⟨0, rfl, hfit, fun i hi => absurd hi (Nat.not_lt_zero i)⟩ res' hrun
  refine ⟨res', hrun, hcount, hfirst, ?_, ?_⟩
  · intro hsmall
    obtain ⟨j, hc, -, hlow⟩ := hfirst
    cases j with
    | zero => exact hc
    | succ j =>
      have := hlow 0 (Nat.succ_pos j)
      simp only [Function.iterate_zero, id_eq] at this
      omega
  · intro hc₀ hn₀ hM
    obtain ⟨j, hc, hn, hlow⟩ := hfirst
    rw [hc₀] at hc hlow
    cases j with
    | zero =>
      simp only [Function.iterate_zero, id_eq] at hc
      omega
    | succ j =>
      rw [next_capacity_iterate_zero] at hc
      refine ⟨j, hc, by omega, ?_⟩
      intro i hi
      have := hlow (i + 1) (by omega)
      rw [next_capacity_iterate_zero] at this
      omega

/-- C16 on two calls from the empty list that append three fragments. -/
theorem C16_render_capacity_closed_form_witness :
    (empty_list.format = 0 ∨ empty_list.format = SUBBITMAP_LIBASS) ∧
    empty_list.num_parts ≤ empty_list.capacity ∧
    ∃ res', render_frames (fun _ => blank)
        [([img 1 1 1, img 0 2 2], 1), ([img 3 3 3, img 4 4 4], 0)] empty_list = .ok res' ∧
      res'.num_parts = empty_list.num_parts +
        appended [([img 1 1 1, img 0 2 2], 1), ([img 3 3 3, img 4 4 4], 0)] ∧
      first_capacity_for empty_list.capacity res'.num_parts res'.capacity :=
  ⟨Or.inl rfl, by decide,
   (C16_render_capacity_closed_form (fun _ => blank)
      [([img 1 1 1, img 0 2 2], 1), ([img 3 3 3, img 4 4 4], 0)] empty_list
      (Or.inl rfl) (by decide)).2.imp (fun _ h => ⟨h.1, h.2.1, h.2.2.1⟩)⟩

/-! ## Event pruning: release calls and array accesses of a call -/

/-- The release calls of two runs of steps, one after the other. -/
theorem released_append (a b : List Access) : released (a ++ b) = released a ++ released b := by
  induction a with
  | nil => rfl
  | cons x a ih =>
    cases x <;> simp [released, ih]

/-- The scan steps over `count` indices from `n` release exactly the events at
these indices, in order. -/
theorem released_scan_steps (evs : List ASS_Event) :
    ∀ (count n : Nat), n + count ≤ evs.length →
      released (scan_steps evs count n) = (List.range' n count).zip ((evs.drop n).take count) := by
  intro count
  induction count with
  | zero => intro n _; simp [scan_steps, released]
  | succ count ih =>
    intro n h
    have hn : n < evs.length := by omega
    have hdrop : evs.drop n = evs[n] :: evs.drop (n + 1) := List.drop_eq_getElem_cons hn
    simp only [scan_steps, List.getElem?_eq_getElem hn, List.cons_append, List.nil_append,
      released, List.range'_succ, hdrop, List.take_succ_cons, List.zip_cons_cons]
    rw [ih (n + 1) (by omega)]

/-- The final read of the scan is no release call. -/
theorem released_stop_step (evs : List ASS_Event) (r : Nat) (b : Bool) :
    released (stop_step evs r b) = [] := by
  unfold stop_step
  cases b <;> cases evs[r]? <;> simp [released]

/-- The shift steps contain no release call. -/
theorem released_shift_steps (evs : List ASS_Event) (n : Nat) :
    ∀ (count i : Nat), released (shift_steps evs n count i) = [] := by
  intro count
  induction count with
  | zero => intro i; simp [shift_steps, released]
  | succ count ih =>
    intro i
    simp only [shift_steps, released_append, ih (i + 1), List.append_nil]
    cases evs[i + n]? <;> simp [released]

/-- Every scan step is a read or a release of an index the scan passed, with
the event the array holds there. -/
theorem mem_scan_steps (evs : List ASS_Event) (a : Access) :
    ∀ (count n : Nat), a ∈ scan_steps evs count n →
      ∃ i e, n ≤ i ∧ i < n + count ∧ evs[i]? = some e ∧
        (a = Access.read i e ∨ a = Access.free i e) := by
  intro count
  induction count with
  | zero => intro n h; simp [scan_steps] at h
  | succ count ih =>
    intro n h
    simp only [scan_steps, List.mem_append] at h
    rcases h with h | h
    · cases hget : evs[n]? with
      | none => simp [hget] at h
      | some e =>
        simp only [hget, List.mem_cons, List.mem_singleton, List.not_mem_nil, or_false] at h
        exact ⟨n, e, Nat.le_refl _, by omega, hget, h⟩
    · obtain ⟨i, e, h1, h2, h3, h4⟩ := ih (n + 1) h
      exact ⟨i, e, by omega, by omega, h3, h4⟩

/-- The final step of the scan, if any, is a read of the index it stopped at,
with the event the array holds there. -/
theorem mem_stop_step (evs : List ASS_Event) (r : Nat) (b : Bool) (a : Access)
    (h : a ∈ stop_step evs r b) : b = true ∧ ∃ e, evs[r]? = some e ∧ a = Access.read r e := by
  unfold stop_step at h
  cases b with
  | false => simp at h
  | true =>
    cases hget : evs[r]? with
    | none => simp [hget] at h
    | some e =>
      simp only [hget, if_true, List.mem_singleton] at h
      exact ⟨rfl, e, rfl, h⟩

/-- Every shift step is a read of slot `i + n` or a write of slot `i`, for an
index `i` of the loop, with the event the array held at `i + n`. -/
theorem mem_shift_steps (evs : List ASS_Event) (n : Nat) (a : Access) :
    ∀ (count k : Nat), a ∈ shift_steps evs n count k →
      ∃ i e, k ≤ i ∧ i < k + count ∧ evs[i + n]? = some e ∧
        (a = Access.read (i + n) e ∨ a = Access.write i e) := by
  intro count
  induction count with
  | zero => intro k h; simp [shift_steps] at h
  | succ count ih =>
    intro k h
    simp only [shift_steps, List.mem_append] at h
    rcases h with h | h
    · cases hget : evs[k + n]? with
      | none => simp [hget] at h
      | some e =>
        simp only [hget, List.mem_cons, List.mem_singleton, List.not_mem_nil, or_false] at h
        exact ⟨k, e, Nat.le_refl _, by omega, hget, h⟩
    · obtain ⟨i, e, h1, h2, h3, h4⟩ := ih (k + 1) h
      exact ⟨i, e, by omega, by omega, h3, h4⟩

/-- C15, counterexample.  Both events have an end time of at least the
watermark 0, so `k = 0` and the claim asks for `r = min (0, 1) = 0` removals
and `n_events = 2`.  The 64-bit sum of the first event wraps to `-2 ^ 63`: the
code removes one event and leaves `n_events = 1`. -/
theorem C15_overflow_removes_one_more :
    leading_expired (track_of [ev 9223372036854775807 1 0, ev 0 5 1]) 0 = 0 ∧
    min (leading_expired (track_of [ev 9223372036854775807 1 0, ev 0 5 1]) 0)
      (((track_of [ev 9223372036854775807 1 0, ev 0 5 1]).n_events + 1) / 2) = 0 ∧
    (mp_ass_flush_old_events (track_of [ev 9223372036854775807 1 0, ev 0 5 1]) 0).map
        (fun t => (t.n_events, t.events[0]?)) = .ok (1, some (ev 0 5 1)) := by
  decide

/-- C15, amended.  On a track whose `N = n_events` events fit its array and
none of whose sums `Start + Duration` overflows `long long`, with `k` the
length of the longest prefix of events with `Start + Duration < ts`, the call
returns having removed exactly `r = min k ((N + 1) / 2)` events, that is
`min (k, ceil (N / 2))`: afterwards `n_events = N - r`, slot `i` holds the
pre-call event of slot `i + r` for every `i < N - r`, and the release calls
were exactly those on the indices `0 .. r - 1`, in this order, each on the
pre-call event of its index. -/
theorem C15_flush_exact_removal (t : ASS_Track) (ts : Int)
    (hlen : t.n_events ≤ t.events.length)
    (hrange : ∀ e, e ∈ t.live_events → e.in_range) :
    ∃ t' steps r, mp_ass_flush_old_events t ts = .ok t' ∧
      t'.trace = t.trace ++ steps ∧
      r = min (leading_expired t ts) ((t.n_events + 1) / 2) ∧
      t'.n_events = t.n_events - r ∧
      (∀ i, i < t.n_events - r → t'.events[i]? = t.events[i + r]?) ∧
      released steps = (List.range r).zip (t.events.take r) := by
  obtain ⟨t', r, hrun, hr, hcount, -, -, hev, htr⟩ := flush_spec t ts hlen
  rw [leading_below_eq t ts hrange] at hr
  have hrN : r ≤ t.n_events := by omega
  refine ⟨t', _, r, hrun, by rw [htr, List.append_assoc, List.append_assoc], hr, hcount, ?_, ?_⟩
  · intro i hi
    rw [hev i, if_pos hi]
  · rw [released_append, released_append, released_stop_step,
      released_scan_steps t.events r 0 (by omega), List.range_eq_range']
    split
    · rw [released_shift_steps]
      simp
    · simp [released]

/-- C15, amended, on three events that all end before the watermark: `k = 3`,
`N = 3`, two events are removed. -/
theorem C15_flush_exact_removal_witness :
    (track_of [ev 0 10 0, ev 5 20 1, ev 30 5 2]).n_events ≤
      (track_of [ev 0 10 0, ev 5 20 1, ev 30 5 2]).events.length ∧
    (∀ e, e ∈ (track_of [ev 0 10 0, ev 5 20 1, ev 30 5 2]).live_events → e.in_range) ∧
    ∃ t' steps r, mp_ass_flush_old_events (track_of [ev 0 10 0, ev 5 20 1, ev 30 5 2]) 100 =
        .ok t' ∧
      t'.trace = (track_of [ev 0 10 0, ev 5 20 1, ev 30 5 2]).trace ++ steps ∧
      r = min (leading_expired (track_of [ev 0 10 0, ev 5 20 1, ev 30 5 2]) 100)
        (((track_of [ev 0 10 0, ev 5 20 1, ev 30 5 2]).n_events + 1) / 2) ∧
      t'.n_events = (track_of [ev 0 10 0, ev 5 20 1, ev 30 5 2]).n_events - r ∧
      (∀ i, i < (track_of [ev 0 10 0, ev 5 20 1, ev 30 5 2]).n_events - r →
        t'.events[i]? = (track_of [ev 0 10 0, ev 5 20 1, ev 30 5 2]).events[i + r]?) ∧
      released steps =
        (List.range r).zip ((track_of [ev 0 10 0, ev 5 20 1, ev 30 5 2]).events.take r) :=
  ⟨by decide, by decide,
   C15_flush_exact_removal (track_of [ev 0 10 0, ev 5 20 1, ev 30 5 2]) 100 (by decide) (by decide)⟩

/-- C17.  On a track whose `N = n_events` events fit its array the call
returns, and every step it performs stays inside the events in use: every
read, in the scan and in the shift, is of an index below `N` and finds the
pre-call event of that index (no slot is read after it has been written), and
every write and every release call is on an index below `N`. -/
theorem C17_flush_index_safety (t : ASS_Track) (ts : Int)
    (hlen : t.n_events ≤ t.events.length) :
    ∃ t' steps, mp_ass_flush_old_events t ts = .ok t' ∧
      t'.trace = t.trace ++ steps ∧
      (∀ i e, Access.read i e ∈ steps → i < t.n_events ∧ t.events[i]? = some e) ∧
      (∀ i e, Access.write i e ∈ steps → i < t.n_events) ∧
      (∀ i e, Access.free i e ∈ steps → i < t.n_events ∧ t.events[i]? = some e) := by
  obtain ⟨t', r, hrun, hr, -, -, -, -, htr⟩ := flush_spec t ts hlen
  have hrN : r ≤ t.n_events := by omega
  have key : ∀ a, a ∈ scan_steps t.events r 0 ++ (stop_step t.events r (decide (r < t.n_events - r))
      ++ (if 0 < r then shift_steps t.events r (t.n_events - r) 0 else [])) →
      ∃ i e, i < t.n_events ∧
        ((t.events[i]? = some e ∧ (a = Access.read i e ∨ a = Access.free i e)) ∨
          a = Access.write i e) := by
    intro a ha
    simp only [List.mem_append] at ha
    rcases ha with ha | ha | ha
    · obtain ⟨i, e, -, h2, h3, h4⟩ := mem_scan_steps t.events a r 0 ha
      exact ⟨i, e, by omega, Or.inl ⟨h3, h4⟩⟩
    · obtain ⟨hb, e, h3, h4⟩ := mem_stop_step t.events r _ a ha
      have hlt : r < t.n_events - r := of_decide_eq_true hb
      exact ⟨r, e, by omega, Or.inl ⟨h3, Or.inl h4⟩⟩
    · split at ha
      · obtain ⟨i, e, -, h2, h3, h4⟩ := mem_shift_steps t.events r a _ 0 ha
        rcases h4 with h4 | h4
        · exact ⟨i + r, e, by omega, Or.inl ⟨h3, Or.inl h4⟩⟩
        · exact ⟨i, e, by omega, Or.inr h4⟩
      · simp at ha
  refine ⟨t', _, hrun, by rw [htr, List.append_assoc, List.append_assoc], ?_, ?_, ?_⟩
  · intro i e hmem
    obtain ⟨i', e', hi, h | h⟩ := key _ hmem
    · rcases h with ⟨hget, h | h⟩
      · cases h
        exact ⟨hi, hget⟩
      · cases h
    · cases h
  · intro i e hmem
    obtain ⟨i', e', hi, h | h⟩ := key _ hmem
    · rcases h with ⟨-, h | h⟩ <;> cases h
    · cases h
      exact hi
  · intro i e hmem
    obtain ⟨i', e', hi, h | h⟩ := key _ hmem
    · rcases h with ⟨hget, h | h⟩
      · cases h
      · cases h
        exact ⟨hi, hget⟩
    · cases h

/-- C17 on the example of the specification with watermark 26. -/
theorem C17_flush_index_safety_witness :
    (track_of [ev 0 10 0, ev 5 20 1, ev 30 5 2, ev 40 100 3]).n_events ≤
      (track_of [ev 0 10 0, ev 5 20 1, ev 30 5 2, ev 40 100 3]).events.length ∧
    ∃ t' steps,
      mp_ass_flush_old_events (track_of [ev 0 10 0, ev 5 20 1, ev 30 5 2, ev 40 100 3]) 26 =
        .ok t' ∧
      t'.trace = (track_of [ev 0 10 0, ev 5 20 1, ev 30 5 2, ev 40 100 3]).trace ++ steps ∧
      (∀ i e, Access.read i e ∈ steps →
        i < (track_of [ev 0 10 0, ev 5 20 1, ev 30 5 2, ev 40 100 3]).n_events ∧
        (track_of [ev 0 10 0, ev 5 20 1, ev 30 5 2, ev 40 100 3]).events[i]? = some e) ∧
      (∀ i e, Access.write i e ∈ steps →
        i < (track_of [ev 0 10 0, ev 5 20 1, ev 30 5 2, ev 40 100 3]).n_events) ∧
      (∀ i e, Access.free i e ∈ steps →
        i < (track_of [ev 0 10 0, ev 5 20 1, ev 30 5 2, ev 40 100 3]).n_events ∧
        (track_of [ev 0 10 0, ev 5 20 1, ev 30 5 2, ev 40 100 3]).events[i]? = some e) :=
  ⟨by decide,
   C17_flush_index_safety (track_of [ev 0 10 0, ev 5 20 1, ev 30 5 2, ev 40 100 3]) 26
     (by decide)⟩

/-! ## Style translation: the alignment -/

/-- The alignment that `mp_ass_set_style` stores for options within range: the
base 1, 5 or 9 of the group of `align_y`, plus `align_x + 1`. -/
theorem mp_ass_set_style_alignment (style : ASS_Style) (opts : osd_style_opts)
    (hy : opts.align_y = -1 ∨ opts.align_y = 0 ∨ opts.align_y = 1) :
    ∃ s, mp_ass_set_style (some style) opts = some s ∧
      s.Alignment =
        (if opts.align_y = 1 then 1 else if opts.align_y = -1 then 5 else 9) +
          (opts.align_x + 1) := by
  refine ⟨_, rfl, ?_⟩
  show 1 + (opts.align_x + 1) + Int.tmod (opts.align_y + 2) 3 * 4 = _
  have h1 : Int.tmod (-1 + 2) 3 = 1 := by decide
  have h2 : Int.tmod (0 + 2) 3 = 2 := by decide
  have h3 : Int.tmod (1 + 2) 3 = 0 := by decide
  rcases hy with h | h | h
  · rw [h, h1, if_neg (by decide), if_pos rfl]
    omega
  · rw [h, h2, if_neg (by decide), if_neg (by decide)]
    omega
  · rw [h, h3, if_pos rfl]
    omega

/-- C18.  For `align_x` and `align_y` in {-1, 0, 1} and a non-null style,
`mp_ass_set_style` stores `Alignment = base + (align_x + 1)` with base 1 for
`align_y = 1`, base 5 for `align_y = -1` and base 9 for `align_y = 0`: the
values 1, 2, 3, or 5, 6, 7, or 9, 10, 11, with `align_x = -1, 0, 1` selecting
the first, second, third value of the group.  Two option records within range
that yield the same `Alignment` have the same `align_x` and `align_y`. -/
theorem C18_alignment_encoding (style : ASS_Style) (opts : osd_style_opts)
    (hx : opts.align_x = -1 ∨ opts.align_x = 0 ∨ opts.align_x = 1)
    (hy : opts.align_y = -1 ∨ opts.align_y = 0 ∨ opts.align_y = 1) :
    ∃ s, mp_ass_set_style (some style) opts = some s ∧
      s.Alignment = 1 + (opts.align_x + 1) + Int.tmod (opts.align_y + 2) 3 * 4 ∧
      (opts.align_y = 1 → s.Alignment = 1 + (opts.align_x + 1) ∧
        (s.Alignment = 1 ∨ s.Alignment = 2 ∨ s.Alignment = 3)) ∧
      (opts.align_y = -1 → s.Alignment = 5 + (opts.align_x + 1) ∧
        (s.Alignment = 5 ∨ s.Alignment = 6 ∨ s.Alignment = 7)) ∧
      (opts.align_y = 0 → s.Alignment = 9 + (opts.align_x + 1) ∧
        (s.Alignment = 9 ∨ s.Alignment = 10 ∨ s.Alignment = 11)) ∧
      ∀ (style' : ASS_Style) (opts' : osd_style_opts) (s' : ASS_Style),
        (opts'.align_x = -1 ∨ opts'.align_x = 0 ∨ opts'.align_x = 1) →
        (opts'.align_y = -1 ∨ opts'.align_y = 0 ∨ opts'.align_y = 1) →
        mp_ass_set_style (some style') opts' = some s' →
        s'.Alignment = s.Alignment →
        opts'.align_x = opts.align_x ∧ opts'.align_y = opts.align_y := by
  obtain ⟨s, hrun, hval⟩ := mp_ass_set_style_alignment style opts hy
  refine ⟨s, hrun, ?_, ?_, ?_, ?_, ?_⟩
  · simp only [mp_ass_set_style, Option.some.injEq] at hrun
    rw [← hrun]
  · intro h
    rw [h] at hval
    simp only [if_true] at hval
    exact ⟨hval, by omega⟩
  · intro h
    rw [h] at hval
    simp only [show ¬ ((-1 : Int) = 1) by decide, if_false, if_true] at hval
    exact ⟨hval, by omega⟩
  · intro h
    rw [h] at hval
    simp only [show ¬ ((0 : Int) = 1) by decide, show ¬ ((0 : Int) = -1) by decide,
      if_false] at hval
    exact ⟨hval, by omega⟩
  · intro style' opts' s' hx' hy' hrun' hsame
    obtain ⟨s₂, hrun₂, hval₂⟩ := mp_ass_set_style_alignment style' opts' hy'
    rw [hrun'] at hrun₂
    cases hrun₂
    rw [hval, hval₂] at hsame
    rcases hy with h | h | h <;> rcases hy' with h' | h' | h' <;>
      rw [h, h'] at hsame <;> simp at hsame <;> rw [h, h'] <;> omega

/-- C18 at `align_x = 0`, `align_y = -1`, where the alignment is 6. -/
theorem C18_alignment_encoding_witness :
    ((0 : Int) = -1 ∨ (0 : Int) = 0 ∨ (0 : Int) = 1) ∧
    ((-1 : Int) = -1 ∨ (-1 : Int) = 0 ∨ (-1 : Int) = 1) ∧
    ∃ s, mp_ass_set_style (some { Alignment := 0 }) { align_x := 0, align_y := -1 } = some s ∧
      s.Alignment = 1 + ((0 : Int) + 1) + Int.tmod (-1 + 2) 3 * 4 :=
  ⟨by decide, by decide,
   (C18_alignment_encoding { Alignment := 0 } { align_x := 0, align_y := -1 }
      (by decide) (by decide)).imp (fun _ h => ⟨h.1, h.2.1⟩)⟩

end AssMp
